import Mathlib

/-!
Verification of the dler repository's task lifecycle, history/cache subsystem
and URL normalizer, as a shallow embedding in Lean 4.

The embedding models:
  * the URL normalizer `normalize_youtube_url` from src/yt-dlp/worker.py,
    together with the fragments of Python's `urllib.parse` it uses
    (`urlparse`, `urlunparse`, `parse_qs`, `urlencode`, `quote_plus`,
    `unquote_plus`), faithfully re-implemented on `List Char`;
  * the shared mutable state (Celery result backend, Redis history zset and
    details hash, the `video_cache` hash, the download directory) as a record,
    with the endpoint handlers of src/yt-dlp/main.py, src/app/main.py and
    src/docker/main.py as state-transition functions;
  * the Celery retry policy of src/app/worker.py.

Machine strings are `List Char`; percent escapes are decoded to the byte's
codepoint (Latin-1 view of bytes), which agrees with CPython on ASCII inputs,
the domain used by every theorem below.
-/

namespace Dler

/-! ## Character classes (ASCII), as used by urllib.parse -/

def isAsciiUpper (c : Char) : Bool := 'A' ≤ c && c ≤ 'Z'

def isAsciiLower (c : Char) : Bool := 'a' ≤ c && c ≤ 'z'

def isAsciiAlphaCh (c : Char) : Bool := isAsciiUpper c || isAsciiLower c

def isAsciiDigit (c : Char) : Bool := '0' ≤ c && c ≤ '9'

/-- Lowercase an ASCII letter, leave anything else unchanged
(`str.lower` restricted to the ASCII range used by scheme names). -/
def lowerCh (c : Char) : Char :=
  if isAsciiUpper c then Char.ofNat (c.toNat + 32) else c

/-- Characters allowed in a URL scheme (`urllib.parse.scheme_chars`). -/
def isSchemeCh (c : Char) : Bool :=
  isAsciiAlphaCh c || isAsciiDigit c || c == '+' || c == '-' || c == '.'

/-! ## Generic splitting helpers (`str.split(d, 1)`, `str.rfind`) -/

/-- Split a list at the first occurrence of `d`: `some (before, after)`
with the delimiter removed, or `none` when `d` does not occur
(`str.split(d, 1)` when it finds a separator). -/
def splitAtFirst (d : Char) : List Char → Option (List Char × List Char)
  | [] => none
  | c :: rest =>
    if c = d then some ([], rest)
    else
      match splitAtFirst d rest with
      | some (a, b) => some (c :: a, b)
      | none => none

/-- Split a list at the last occurrence of `d` (via `str.rfind`). -/
def splitAtLast (d : Char) (l : List Char) : Option (List Char × List Char) :=
  match splitAtFirst d l.reverse with
  | some (a, b) => some (b.reverse, a.reverse)
  | none => none

/-- Split on every occurrence of `d` (`str.split(d)`); the result is
nonempty and `"" → [""]` as in Python. -/
def splitAllOn (d : Char) : List Char → List (List Char)
  | [] => [[]]
  | c :: rest =>
    let r := splitAllOn d rest
    if c = d then [] :: r
    else
      match r with
      | h :: t => (c :: h) :: t
      | [] => [[c]]

theorem splitAtFirst_of_not_mem {d : Char} {l : List Char} (h : d ∉ l) :
    splitAtFirst d l = none := by
  induction l with
  | nil => rfl
  | cons c rest ih =>
    simp only [List.mem_cons, not_or] at h
    simp [splitAtFirst, Ne.symm h.1, ih h.2]

theorem splitAtFirst_append {d : Char} {a b : List Char} (h : d ∉ a) :
    splitAtFirst d (a ++ d :: b) = some (a, b) := by
  induction a with
  | nil => simp [splitAtFirst]
  | cons c rest ih =>
    simp only [List.mem_cons, not_or] at h
    simp [splitAtFirst, Ne.symm h.1, ih h.2]

theorem splitAtLast_append {d : Char} {a t : List Char} (h : d ∉ t) :
    splitAtLast d (a ++ d :: t) = some (a, t) := by
  have hrev : (a ++ d :: t).reverse = t.reverse ++ d :: a.reverse := by
    simp
  have hnot : d ∉ t.reverse := by simpa using h
  simp [splitAtLast, hrev, splitAtFirst_append hnot]

theorem exists_last_occurrence {d : Char} {l : List Char} (h : d ∈ l) :
    ∃ a t, l = a ++ d :: t ∧ d ∉ t := by
  induction l with
  | nil => cases h
  | cons c rest ih =>
    by_cases hd : d ∈ rest
    · obtain ⟨a, t, rfl, hnot⟩ := ih hd
      exact ⟨c :: a, t, rfl, hnot⟩
    · have : c = d := by
        rcases List.mem_cons.mp h with h1 | h2
        · exact h1.symm
        · exact absurd h2 hd
      exact ⟨[], rest, by simp [this], hd⟩

theorem splitAtFirst_all {p : Char → Bool} {d : Char} {l a b : List Char}
    (hs : splitAtFirst d l = some (a, b)) (hl : l.all p = true) :
    a.all p = true ∧ b.all p = true := by
  induction l generalizing a with
  | nil => simp [splitAtFirst] at hs
  | cons c rest ih =>
    simp only [List.all_cons, Bool.and_eq_true] at hl
    by_cases hc : c = d
    · simp [splitAtFirst, hc] at hs
      obtain ⟨rfl, rfl⟩ := hs
      exact ⟨by simp, hl.2⟩
    · simp only [splitAtFirst, if_neg hc] at hs
      cases hsa : splitAtFirst d rest with
      | none => rw [hsa] at hs; cases hs
      | some ab =>
        obtain ⟨a0, b0⟩ := ab
        rw [hsa] at hs
        simp at hs
        obtain ⟨rfl, rfl⟩ := hs
        obtain ⟨h1, h2⟩ := ih hsa hl.2
        exact ⟨by simp [hl.1, h1], h2⟩

theorem splitAllOn_all {p : Char → Bool} {d : Char} {l : List Char}
    (hl : l.all p = true) : ∀ f ∈ splitAllOn d l, f.all p = true := by
  induction l with
  | nil => intro f hf; simp [splitAllOn] at hf; simp [hf]
  | cons c rest ih =>
    simp only [List.all_cons, Bool.and_eq_true] at hl
    intro f hf
    by_cases hc : c = d
    · simp only [splitAllOn, if_pos hc] at hf
      rcases List.mem_cons.mp hf with rfl | hmem
      · simp
      · exact ih hl.2 f hmem
    · simp only [splitAllOn, if_neg hc] at hf
      cases hr : splitAllOn d rest with
      | nil => rw [hr] at hf; simp at hf; simp [hf, hl.1]
      | cons h0 t0 =>
        rw [hr] at hf
        rcases List.mem_cons.mp hf with rfl | hmem
        · have : h0 ∈ splitAllOn d rest := by rw [hr]; exact List.mem_cons_self _ _
          have := ih hl.2 h0 this
          simp [hl.1, this]
        · exact ih hl.2 f (by rw [hr]; exact List.mem_cons_of_mem _ hmem)

theorem takeWhile_append_of_all {p : Char → Bool} {a b : List Char}
    (ha : a.all p = true) :
    (a ++ b).takeWhile p = a ++ b.takeWhile p := by
  induction a with
  | nil => simp
  | cons c rest ih =>
    simp only [List.all_cons, Bool.and_eq_true] at ha
    simp [List.takeWhile_cons, ha.1, ih ha.2]

theorem dropWhile_append_of_all {p : Char → Bool} {a b : List Char}
    (ha : a.all p = true) :
    (a ++ b).dropWhile p = b.dropWhile p := by
  induction a with
  | nil => simp
  | cons c rest ih =>
    simp only [List.all_cons, Bool.and_eq_true] at ha
    simp [List.dropWhile_cons, ha.1, ih ha.2]

/-! ## Percent encoding (`urllib.parse.quote_plus` / `unquote_plus`)

Bytes are modelled as codepoints below 256 (Latin-1 view), which coincides
with CPython's UTF-8 treatment on the ASCII range used by the theorems. -/

/-- Value of a hexadecimal digit, accepting both cases (`_hextobyte`). -/
def hexDigitVal (c : Char) : Option Nat :=
  if '0' ≤ c ∧ c ≤ '9' then some (c.toNat - 48)
  else if 'A' ≤ c ∧ c ≤ 'F' then some (c.toNat - 55)
  else if 'a' ≤ c ∧ c ≤ 'f' then some (c.toNat - 87)
  else none

/-- Uppercase hexadecimal digit for `n < 16`, as emitted by `quote`. -/
def hexDigitCh (n : Nat) : Char :=
  if n < 10 then Char.ofNat (48 + n) else Char.ofNat (55 + n)

/-- Pending characters at the end of a percent-decoding scan: nothing, a
lone `%`, or `%` plus one hex digit; emitted literally at end of input. -/
def unqFlush : Option (Option Char) → List Char
  | none => []
  | some none => ['%']
  | some (some h1) => ['%', h1]

/-- One-character-at-a-time scanner equivalent to `urllib.parse.unquote`'s
chunk loop: the state records a pending `%` (and first hex digit); a
complete `%XX` pair becomes the byte's codepoint, a failed escape is
emitted literally and scanning resumes at the offending character. -/
def unqAux : Option (Option Char) → List Char → List Char
  | st, [] => unqFlush st
  | none, c :: rest =>
    if c = '%' then unqAux (some none) rest
    else c :: unqAux none rest
  | some none, c :: rest =>
    if (hexDigitVal c).isSome then unqAux (some (some c)) rest
    else if c = '%' then '%' :: unqAux (some none) rest
    else '%' :: c :: unqAux none rest
  | some (some h1), c :: rest =>
    match hexDigitVal h1, hexDigitVal c with
    | some a, some b => Char.ofNat (16 * a + b) :: unqAux none rest
    | _, _ =>
      if c = '%' then '%' :: h1 :: unqAux (some none) rest
      else '%' :: h1 :: c :: unqAux none rest

/-- Percent-decode (`urllib.parse.unquote`): a `%` followed by two hex digits
becomes the byte's codepoint, otherwise characters pass through. -/
def unquoteCh (l : List Char) : List Char :=
  unqAux none l

/-- Replace `+` with a space, the first step of `unquote_plus`. -/
def plusToSpace (l : List Char) : List Char :=
  l.map (fun c => if c == '+' then ' ' else c)

/-- Model of `urllib.parse.unquote_plus`. -/
def unquotePlusCh (l : List Char) : List Char :=
  unquoteCh (plusToSpace l)

/-- Characters `quote_plus` passes through unescaped
(`ALWAYS_SAFE` with the empty extra-safe string). -/
def isSafeCh (c : Char) : Bool :=
  isAsciiAlphaCh c || isAsciiDigit c || c == '_' || c == '.' || c == '-' || c == '~'

/-- Escape one byte as `%XX` with uppercase hex digits. -/
def quoteByte (n : Nat) : List Char :=
  ['%', hexDigitCh (n / 16), hexDigitCh (n % 16)]

/-- Model of `urllib.parse.quote_plus`: safe characters pass, space becomes
`+`, everything else is percent-escaped. -/
def quotePlusCh : List Char → List Char
  | [] => []
  | c :: rest =>
    (if isSafeCh c then [c] else if c = ' ' then ['+'] else quoteByte c.toNat)
      ++ quotePlusCh rest

theorem hexDigitVal_hexDigitCh {n : Nat} (h : n < 16) :
    hexDigitVal (hexDigitCh n) = some n := by
  interval_cases n <;> decide

theorem unquoteCh_nil : unquoteCh [] = [] := rfl

theorem unquoteCh_cons_of_ne {c : Char} {rest : List Char} (h : c ≠ '%') :
    unquoteCh (c :: rest) = c :: unquoteCh rest := by
  simp [unquoteCh, unqAux, h]

theorem hexDigitCh_ne_plus {n : Nat} (h : n < 16) : hexDigitCh n ≠ '+' := by
  interval_cases n <;> decide

theorem unquoteCh_quoteByte {n : Nat} (h : n < 256) (rest : List Char) :
    unquoteCh (quoteByte n ++ rest) = Char.ofNat n :: unquoteCh rest := by
  have h1 : n / 16 < 16 := by omega
  have h2 : n % 16 < 16 := Nat.mod_lt _ (by omega)
  have hn : 16 * (n / 16) + n % 16 = n := by omega
  rw [quoteByte, List.cons_append, List.cons_append, List.cons_append, List.nil_append,
    unquoteCh]
  rw [show unqAux none ('%' :: hexDigitCh (n / 16) :: hexDigitCh (n % 16) :: rest)
      = unqAux (some none) (hexDigitCh (n / 16) :: hexDigitCh (n % 16) :: rest) from by
    simp [unqAux]]
  rw [show unqAux (some none) (hexDigitCh (n / 16) :: hexDigitCh (n % 16) :: rest)
      = unqAux (some (some (hexDigitCh (n / 16)))) (hexDigitCh (n % 16) :: rest) from by
    simp [unqAux, hexDigitVal_hexDigitCh h1]]
  rw [show unqAux (some (some (hexDigitCh (n / 16)))) (hexDigitCh (n % 16) :: rest)
      = Char.ofNat (16 * (n / 16) + n % 16) :: unqAux none rest from by
    rw [unqAux, hexDigitVal_hexDigitCh h1, hexDigitVal_hexDigitCh h2]]
  rw [hn, unquoteCh]

theorem plusToSpace_nil : plusToSpace [] = [] := rfl

theorem plusToSpace_cons {c : Char} {l : List Char} :
    plusToSpace (c :: l) = (if c = '+' then ' ' else c) :: plusToSpace l := by
  simp [plusToSpace]

theorem plusToSpace_append {a b : List Char} :
    plusToSpace (a ++ b) = plusToSpace a ++ plusToSpace b := by
  simp [plusToSpace]

theorem quotePlusCh_cons_safe {c : Char} {rest : List Char} (hs : isSafeCh c = true) :
    quotePlusCh (c :: rest) = c :: quotePlusCh rest := by
  simp [quotePlusCh, hs]

theorem quotePlusCh_cons_space {rest : List Char} :
    quotePlusCh (' ' :: rest) = '+' :: quotePlusCh rest := by
  have hs : isSafeCh ' ' = false := by decide
  simp [quotePlusCh, hs]

theorem quotePlusCh_cons_other {c : Char} {rest : List Char}
    (hs : isSafeCh c = false) (hsp : c ≠ ' ') :
    quotePlusCh (c :: rest) = quoteByte c.toNat ++ quotePlusCh rest := by
  simp [quotePlusCh, hs, hsp]

theorem plusToSpace_quoteByte {n : Nat} (h : n < 256) :
    plusToSpace (quoteByte n) = quoteByte n := by
  have h1 : n / 16 < 16 := by omega
  have h2 : n % 16 < 16 := Nat.mod_lt _ (by omega)
  simp only [quoteByte, plusToSpace, List.map_cons, List.map_nil]
  rw [if_neg (by decide), if_neg (by simpa using hexDigitCh_ne_plus h1),
    if_neg (by simpa using hexDigitCh_ne_plus h2)]

theorem isSafeCh_ne_percent {c : Char} (h : isSafeCh c = true) : c ≠ '%' := by
  intro hc
  subst hc
  exact absurd h (by decide)

theorem isSafeCh_ne_plus {c : Char} (h : isSafeCh c = true) : c ≠ '+' := by
  intro hc
  subst hc
  exact absurd h (by decide)

/-- The decode/encode round trip: `unquote_plus (quote_plus s) = s` for
byte-ranged characters. -/
theorem unquotePlus_quotePlus {l : List Char} (h : ∀ c ∈ l, c.toNat < 256) :
    unquotePlusCh (quotePlusCh l) = l := by
  induction l with
  | nil => rw [unquotePlusCh]; rw [show quotePlusCh [] = [] from rfl, plusToSpace_nil, unquoteCh_nil]
  | cons c rest ih =>
    have hc : c.toNat < 256 := h c (List.mem_cons_self _ _)
    have hrest : ∀ x ∈ rest, x.toNat < 256 := fun x hx => h x (List.mem_cons_of_mem _ hx)
    have ihr : unquoteCh (plusToSpace (quotePlusCh rest)) = rest := ih hrest
    by_cases hs : isSafeCh c = true
    · rw [unquotePlusCh, quotePlusCh_cons_safe hs, plusToSpace_cons,
        if_neg (isSafeCh_ne_plus hs), unquoteCh_cons_of_ne (isSafeCh_ne_percent hs), ihr]
    · by_cases hsp : c = ' '
      · subst hsp
        rw [unquotePlusCh, quotePlusCh_cons_space, plusToSpace_cons, if_pos rfl,
          unquoteCh_cons_of_ne (by decide), ihr]
      · rw [unquotePlusCh, quotePlusCh_cons_other (by simpa using hs) hsp,
          plusToSpace_append, plusToSpace_quoteByte hc, unquoteCh_quoteByte hc, ihr,
          Char.ofNat_toNat]

/-- Characters that can never appear in `quote_plus` output and therefore
cannot disturb re-parsing of the rebuilt query string. -/
def cleanCh (c : Char) : Bool :=
  c != '#' && c != '&' && c != '=' && c != '?' && c != ';' && c != '/'

theorem cleanCh_of_safe {c : Char} (hs : isSafeCh c = true) : cleanCh c = true := by
  have h1 : c ≠ '#' := fun h => by subst h; exact absurd hs (by decide)
  have h2 : c ≠ '&' := fun h => by subst h; exact absurd hs (by decide)
  have h3 : c ≠ '=' := fun h => by subst h; exact absurd hs (by decide)
  have h4 : c ≠ '?' := fun h => by subst h; exact absurd hs (by decide)
  have h5 : c ≠ ';' := fun h => by subst h; exact absurd hs (by decide)
  have h6 : c ≠ '/' := fun h => by subst h; exact absurd hs (by decide)
  simp [cleanCh, h1, h2, h3, h4, h5, h6]

theorem cleanCh_hexDigit {n : Nat} (h : n < 16) : cleanCh (hexDigitCh n) = true := by
  interval_cases n <;> decide

theorem quotePlusCh_all_clean {l : List Char} (h : ∀ c ∈ l, c.toNat < 256) :
    (quotePlusCh l).all cleanCh = true := by
  induction l with
  | nil => rfl
  | cons c rest ih =>
    have hc : c.toNat < 256 := h c (List.mem_cons_self _ _)
    have hrest : ∀ x ∈ rest, x.toNat < 256 := fun x hx => h x (List.mem_cons_of_mem _ hx)
    simp only [quotePlusCh, List.all_append, Bool.and_eq_true]
    refine ⟨?_, ih hrest⟩
    by_cases hs : isSafeCh c = true
    · simp [hs, cleanCh_of_safe hs]
    · by_cases hsp : c = ' '
      · simp [hs, hsp]; decide
      · have h1 : c.toNat / 16 < 16 := by omega
        have h2 : c.toNat % 16 < 16 := Nat.mod_lt _ (by omega)
        simp [hs, hsp, quoteByte, cleanCh_hexDigit h1, cleanCh_hexDigit h2]
        decide

theorem quotePlusCh_ne_nil {l : List Char} (h : l ≠ []) : quotePlusCh l ≠ [] := by
  cases l with
  | nil => exact absurd rfl h
  | cons c rest =>
    by_cases hs : isSafeCh c = true
    · rw [quotePlusCh_cons_safe hs]; simp
    · by_cases hsp : c = ' '
      · subst hsp; rw [quotePlusCh_cons_space]; simp
      · rw [quotePlusCh_cons_other (by simpa using hs) hsp]; simp [quoteByte]

/-! ## URL parsing (`urllib.parse.urlparse` / `urlunparse`)

The six components returned by `urlparse`.  The IPv6-bracket `ValueError`
and the `_checknetloc` unicode check of CPython are not modelled; every
theorem below stays inside the ASCII, bracket-free domain where `urlsplit`
is total. -/

structure UrlParts where
  scheme : List Char
  netloc : List Char
  path : List Char
  params : List Char
  query : List Char
  fragment : List Char
deriving DecidableEq, Repr

/-- Scheme extraction step of `urlsplit`: the text before the first `:` is a
scheme when it is nonempty, starts with an ASCII letter and consists of
scheme characters; it is lowercased. -/
def splitSchemeFn (l : List Char) : List Char × List Char :=
  match splitAtFirst ':' l with
  | some (pre, rest) =>
    if (match pre with | c :: _ => isAsciiAlphaCh c | [] => false) && pre.all isSchemeCh
    then (pre.map lowerCh, rest)
    else ([], l)
  | none => ([], l)

/-- A character ending the netloc section (`_splitnetloc` delimiters). -/
def isNetlocEnd (c : Char) : Bool := c == '/' || c == '?' || c == '#'

/-- Netloc extraction step of `urlsplit`: after a leading `//`, the netloc
runs up to the next `/`, `?` or `#`. -/
def splitNetlocFn (l : List Char) : List Char × List Char :=
  match l with
  | c1 :: c2 :: rest =>
    if c1 = '/' ∧ c2 = '/' then
      (rest.takeWhile (fun c => !isNetlocEnd c), rest.dropWhile (fun c => !isNetlocEnd c))
    else ([], l)
  | _ => ([], l)

/-- Fragment split of `urlsplit`: everything after the first `#`. -/
def splitFragmentFn (l : List Char) : List Char × List Char :=
  match splitAtFirst '#' l with
  | some (a, b) => (a, b)
  | none => (l, [])

/-- Query split of `urlsplit`: everything after the first `?`. -/
def splitQueryFn (l : List Char) : List Char × List Char :=
  match splitAtFirst '?' l with
  | some (a, b) => (a, b)
  | none => (l, [])

/-- Params split of `urlparse` (`_splitparams`): when the remaining url
contains both `;` and `/`, split at the first `;` after the last `/`. -/
def splitParamsFn (comp : List Char) : List Char × List Char :=
  if comp.contains ';' && comp.contains '/' then
    match splitAtLast '/' comp with
    | some (before, after) =>
      match splitAtFirst ';' after with
      | some (a, b) => (before ++ '/' :: a, b)
      | none => (comp, [])
    | none => (comp, [])
  else (comp, [])

/-- Model of `urllib.parse.urlparse` restricted to `allow_fragments=True`. -/
def urlparseCh (l : List Char) : UrlParts :=
  let s1 := splitSchemeFn l
  let s2 := splitNetlocFn s1.2
  let s3 := splitFragmentFn s2.2
  let s4 := splitQueryFn s3.1
  let s5 := splitParamsFn s4.1
  ⟨s1.1, s2.1, s5.1, s5.2, s4.2, s3.2⟩

/-- Model of `urllib.parse.urlunparse` (via `urlunsplit`). -/
def urlunparseCh (p : UrlParts) : List Char :=
  let u0 := if p.params.isEmpty then p.path else p.path ++ ';' :: p.params
  let u1 :=
    if !p.netloc.isEmpty || (match u0 with | '/' :: '/' :: _ => true | _ => false) then
      let u0a := if !u0.isEmpty && u0.head? != some '/' then '/' :: u0 else u0
      '/' :: '/' :: (p.netloc ++ u0a)
    else u0
  let u2 := if p.scheme.isEmpty then u1 else p.scheme ++ ':' :: u1
  let u3 := if p.query.isEmpty then u2 else u2 ++ '?' :: p.query
  if p.fragment.isEmpty then u3 else u3 ++ '#' :: p.fragment

/-! ## Query-string parsing (`parse_qs` / `urlencode`) -/

/-- Model of `urllib.parse.parse_qsl` with the default
`keep_blank_values=False`: split on `&`, keep fields with an `=` and a
nonempty value, unquote names and values. -/
def parseQsl (qs : List Char) : List (List Char × List Char) :=
  (splitAllOn '&' qs).filterMap (fun field =>
    if field.isEmpty then none
    else
      match splitAtFirst '=' field with
      | none => none
      | some (n, v) =>
        if v.isEmpty then none else some (unquotePlusCh n, unquotePlusCh v))

/-- First value listed for the key `v`, i.e. `parse_qs(q)['v'][0]` when the
key is present (`parse_qs` groups values in encounter order). -/
def firstV (pairs : List (List Char × List Char)) : Option (List Char) :=
  (pairs.find? (fun p => p.1 == ['v'])).map (·.2)

/-- Model of `urllib.parse.urlencode` on a single-entry dict. -/
def urlencode1 (key val : List Char) : List Char :=
  quotePlusCh key ++ '=' :: quotePlusCh val

/-! ## The URL normalizer (src/yt-dlp/worker.py, `normalize_youtube_url`) -/

/-- Body of `normalize_youtube_url` on `List Char`: if a `v` query parameter
is present, rebuild the URL keeping only `v`; otherwise return the input
unchanged. -/
def normalizeYoutubeUrlCh (url : List Char) : List Char :=
  let p := urlparseCh url
  match firstV (parseQsl p.query) with
  | some v0 => urlunparseCh { p with query := urlencode1 ['v'] v0 }
  | none => url

/-- Model of `normalize_youtube_url` from src/yt-dlp/worker.py. -/
def normalize_youtube_url (url : String) : String :=
  ⟨normalizeYoutubeUrlCh url.data⟩

/-! ## Well-formed URL components and the parse/unparse round trip -/

/-- Well-formedness of parsed URL components: a nonempty lowercase scheme,
a nonempty delimiter-free netloc, an absolute (or empty) path free of the
separators that would be re-interpreted on re-parsing, params only next to a
nonempty path, and a hash-free query.  Every component list produced by
parsing an ordinary absolute http/https URL satisfies it. -/
def wfParts (p : UrlParts) : Bool :=
  (match p.scheme with | c :: _ => isAsciiLower c | [] => false)
  && p.scheme.all (fun c => isSchemeCh c && !isAsciiUpper c)
  && !p.netloc.isEmpty
  && p.netloc.all (fun c => !isNetlocEnd c)
  && (p.path.isEmpty || p.path.head? == some '/')
  && p.path.all (fun c => c != '?' && c != '#' && c != ';')
  && (p.params.isEmpty
      || (!p.path.isEmpty && p.params.all (fun c => c != '?' && c != '#' && c != '/')))
  && p.query.all (fun c => c != '#')

theorem isSchemeCh_ne_colon {c : Char} (h : isSchemeCh c = true) : c ≠ ':' := by
  intro hc
  subst hc
  exact absurd h (by decide)

theorem map_lowerCh_of_no_upper {s : List Char}
    (h : s.all (fun c => isSchemeCh c && !isAsciiUpper c) = true) :
    s.map lowerCh = s := by
  induction s with
  | nil => rfl
  | cons c rest ih =>
    simp only [List.all_cons, Bool.and_eq_true] at h
    have hcl : lowerCh c = c := by
      have : isAsciiUpper c = false := by
        rcases h.1 with ⟨_, hnu⟩
        simpa using hnu
      simp [lowerCh, this]
    simp [hcl, ih h.2]

theorem splitSchemeFn_spec {s t : List Char} {c0 : Char} {s0 : List Char}
    (hshape : s = c0 :: s0) (hhead : isAsciiLower c0 = true)
    (hall : s.all (fun c => isSchemeCh c && !isAsciiUpper c) = true) :
    splitSchemeFn (s ++ ':' :: t) = (s, t) := by
  have hnc : ':' ∉ s := by
    intro hmem
    have := List.all_eq_true.mp hall _ hmem
    simp only [Bool.and_eq_true] at this
    exact isSchemeCh_ne_colon this.1 rfl
  have hsplit : splitAtFirst ':' (s ++ ':' :: t) = some (s, t) := splitAtFirst_append hnc
  have halpha : isAsciiAlphaCh c0 = true := by
    simp [isAsciiAlphaCh, hhead]
  have hallS : s.all isSchemeCh = true := by
    apply List.all_eq_true.mpr
    intro x hx
    have := List.all_eq_true.mp hall _ hx
    simp only [Bool.and_eq_true] at this
    exact this.1
  rw [splitSchemeFn, hsplit]
  subst hshape
  simp only [halpha, hallS, Bool.and_self, if_pos]
  rw [map_lowerCh_of_no_upper hall]

theorem splitNetlocFn_spec {n t : List Char}
    (hn : n.all (fun c => !isNetlocEnd c) = true)
    (ht : t = [] ∨ ∃ c rest, t = c :: rest ∧ isNetlocEnd c = true) :
    splitNetlocFn ('/' :: '/' :: (n ++ t)) = (n, t) := by
  have htake : (n ++ t).takeWhile (fun c => !isNetlocEnd c) = n := by
    rw [takeWhile_append_of_all hn]
    rcases ht with rfl | ⟨c, rest, rfl, hc⟩
    · simp
    · simp [List.takeWhile_cons, hc]
  have hdrop : (n ++ t).dropWhile (fun c => !isNetlocEnd c) = t := by
    rw [dropWhile_append_of_all hn]
    rcases ht with rfl | ⟨c, rest, rfl, hc⟩
    · simp
    · simp [List.dropWhile_cons, hc]
  simp [splitNetlocFn, htake, hdrop]

theorem splitFragmentFn_append {a f : List Char} (ha : '#' ∉ a) :
    splitFragmentFn (a ++ '#' :: f) = (a, f) := by
  simp [splitFragmentFn, splitAtFirst_append ha]

theorem splitFragmentFn_of_not_mem {a : List Char} (ha : '#' ∉ a) :
    splitFragmentFn a = (a, []) := by
  simp [splitFragmentFn, splitAtFirst_of_not_mem ha]

theorem splitQueryFn_append {a q : List Char} (ha : '?' ∉ a) :
    splitQueryFn (a ++ '?' :: q) = (a, q) := by
  simp [splitQueryFn, splitAtFirst_append ha]

theorem splitQueryFn_of_not_mem {a : List Char} (ha : '?' ∉ a) :
    splitQueryFn a = (a, []) := by
  simp [splitQueryFn, splitAtFirst_of_not_mem ha]

theorem splitParamsFn_of_no_semi {comp : List Char} (h : ';' ∉ comp) :
    splitParamsFn comp = (comp, []) := by
  have hc : comp.contains ';' = false := by simpa using h
  have hcond : ¬ ((comp.contains ';' && comp.contains '/') = true) := by
    simp only [Bool.and_eq_true]
    intro hb
    rw [hc] at hb
    exact absurd hb.1 (by simp)
  rw [splitParamsFn, if_neg hcond]

theorem splitParamsFn_append {path pr : List Char}
    (hsemi : ';' ∉ path) (hslash : '/' ∈ path) (hpr : '/' ∉ pr) :
    splitParamsFn (path ++ ';' :: pr) = (path, pr) := by
  obtain ⟨pa, pb, rfl, hpb⟩ := exists_last_occurrence hslash
  have hassoc : (pa ++ '/' :: pb) ++ ';' :: pr = pa ++ '/' :: (pb ++ ';' :: pr) := by
    simp
  have hnotin : '/' ∉ pb ++ ';' :: pr := by
    intro hmem
    rcases List.mem_append.mp hmem with h1 | h2
    · exact hpb h1
    · rcases List.mem_cons.mp h2 with h3 | h4
      · cases h3
      · exact hpr h4
  have hlast : splitAtLast '/' ((pa ++ '/' :: pb) ++ ';' :: pr)
      = some (pa, pb ++ ';' :: pr) := by
    rw [hassoc]
    exact splitAtLast_append hnotin
  have hsemipb : ';' ∉ pb := fun hm =>
    hsemi (List.mem_append.mpr (Or.inr (List.mem_cons_of_mem _ hm)))
  have hfirst : splitAtFirst ';' (pb ++ ';' :: pr) = some (pb, pr) :=
    splitAtFirst_append hsemipb
  rw [splitParamsFn, if_pos (by simp), hlast]
  dsimp only
  rw [hfirst]

/-- The path-plus-params section of an unparsed URL. -/
def pathParams (p : UrlParts) : List Char :=
  if p.params.isEmpty then p.path else p.path ++ ';' :: p.params

/-- The query section of an unparsed URL, with its leading `?`. -/
def qtailOf (p : UrlParts) : List Char :=
  if p.query.isEmpty then [] else '?' :: p.query

/-- The fragment section of an unparsed URL, with its leading `#`. -/
def ftailOf (p : UrlParts) : List Char :=
  if p.fragment.isEmpty then [] else '#' :: p.fragment

theorem wfParts_destruct {p : UrlParts} (h : wfParts p = true) :
    (match p.scheme with | c :: _ => isAsciiLower c | [] => false) = true
    ∧ p.scheme.all (fun c => isSchemeCh c && !isAsciiUpper c) = true
    ∧ p.netloc.isEmpty = false
    ∧ p.netloc.all (fun c => !isNetlocEnd c) = true
    ∧ (p.path.isEmpty || p.path.head? == some '/') = true
    ∧ p.path.all (fun c => c != '?' && c != '#' && c != ';') = true
    ∧ (p.params.isEmpty
        || (!p.path.isEmpty && p.params.all (fun c => c != '?' && c != '#' && c != '/'))) = true
    ∧ p.query.all (fun c => c != '#') = true := by
  simp only [wfParts, Bool.and_eq_true] at h
  obtain ⟨⟨⟨⟨⟨⟨⟨h1, h2⟩, h3⟩, h4⟩, h5⟩, h6⟩, h7⟩, h8⟩ := h
  exact ⟨h1, h2, by simpa using h3, h4, h5, h6, h7, h8⟩

theorem pathParams_shape {p : UrlParts} (h : wfParts p = true) :
    pathParams p = [] ∨ ∃ t, pathParams p = '/' :: t := by
  obtain ⟨h1, h2, h3, h4, h5, h6, h7, h8⟩ := wfParts_destruct h
  rw [pathParams]
  by_cases hpr : p.params.isEmpty = true
  · rw [if_pos hpr]
    rcases (Bool.or_eq_true _ _).mp h5 with hp | hp
    · left; simpa using hp
    · cases hpath : p.path with
      | nil => left; rfl
      | cons c rest =>
        rw [hpath] at hp
        simp at hp
        right; exact ⟨rest, by rw [hp]⟩
  · rw [if_neg hpr]
    have hpe : p.path.isEmpty = false := by
      rcases (Bool.or_eq_true _ _).mp h7 with hp | hp
      · exact absurd hp hpr
      · simpa using ((Bool.and_eq_true _ _).mp hp).1
    cases hpath : p.path with
    | nil => rw [hpath] at hpe; simp at hpe
    | cons c rest =>
      have hp : c = '/' := by
        rcases (Bool.or_eq_true _ _).mp h5 with hp | hp
        · rw [hpath] at hp; simp at hp
        · rw [hpath] at hp; simpa using hp
      right
      exact ⟨rest ++ ';' :: p.params, by subst hp; simp⟩

theorem urlunparseCh_form {p : UrlParts} (h : wfParts p = true) :
    urlunparseCh p
      = p.scheme ++ ':' :: ('/' :: '/' :: (p.netloc ++ (pathParams p ++ (qtailOf p ++ ftailOf p)))) := by
  obtain ⟨h1, h2, h3, h4, h5, h6, h7, h8⟩ := wfParts_destruct h
  have hshape := pathParams_shape h
  have hscheme_ne : p.scheme.isEmpty = false := by
    cases hs : p.scheme with
    | nil => rw [hs] at h1; simp at h1
    | cons c rest => simp
  rw [urlunparseCh]
  dsimp only
  rw [show (if p.params.isEmpty then p.path else p.path ++ ';' :: p.params) = pathParams p
      from rfl]
  have hcond1 : (!p.netloc.isEmpty
      || (match pathParams p with | '/' :: '/' :: _ => true | _ => false)) = true := by
    simp [h3]
  rw [if_pos hcond1]
  have hcond2 : (!(pathParams p).isEmpty && (pathParams p).head? != some '/') = false := by
    rcases hshape with h0 | ⟨t, h0⟩ <;> simp [h0]
  simp only [hcond2, Bool.false_eq_true, if_false]
  simp only [hscheme_ne, Bool.false_eq_true, if_false]
  cases hq : p.query.isEmpty <;> cases hf : p.fragment.isEmpty <;>
    simp [qtailOf, ftailOf, hq, hf, List.append_assoc]

/-- Parsing inverts unparsing on well-formed components: the central fact
behind idempotence of the URL normalizer. -/
theorem urlparse_urlunparse {p : UrlParts} (h : wfParts p = true) :
    urlparseCh (urlunparseCh p) = p := by
  obtain ⟨h1, h2, h3, h4, h5, h6, h7, h8⟩ := wfParts_destruct h
  have hshape := pathParams_shape h
  obtain ⟨c0, s0, hsch⟩ : ∃ c0 s0, p.scheme = c0 :: s0 := by
    cases hs : p.scheme with
    | nil => rw [hs] at h1; simp at h1
    | cons a b => exact ⟨a, b, rfl⟩
  have hc0 : isAsciiLower c0 = true := by
    rw [hsch] at h1; simpa using h1
  have hpath_a : ∀ c ∈ p.path, c ≠ '?' ∧ c ≠ '#' ∧ c ≠ ';' := by
    intro c hc
    have := List.all_eq_true.mp h6 _ hc
    simp only [Bool.and_eq_true, bne_iff_ne, ne_eq] at this
    exact ⟨this.1.1, this.1.2, this.2⟩
  have hquery_a : ∀ c ∈ p.query, c ≠ '#' := by
    intro c hc
    have := List.all_eq_true.mp h8 _ hc
    simpa using this
  have hparams_a : p.params = [] ∨ (p.path ≠ [] ∧ ∀ c ∈ p.params, c ≠ '?' ∧ c ≠ '#' ∧ c ≠ '/') := by
    rcases (Bool.or_eq_true _ _).mp h7 with hp | hp
    · left; simpa using hp
    · right
      obtain ⟨hp1, hp2⟩ := (Bool.and_eq_true _ _).mp hp
      refine ⟨by simpa using hp1, ?_⟩
      intro c hc
      have := List.all_eq_true.mp hp2 _ hc
      simp only [Bool.and_eq_true, bne_iff_ne, ne_eq] at this
      exact ⟨this.1.1, this.1.2, this.2⟩
  have hB_noQ : '?' ∉ pathParams p := by
    rw [pathParams]
    by_cases hpr : p.params.isEmpty = true
    · rw [if_pos hpr]
      exact fun hm => (hpath_a _ hm).1 rfl
    · rw [if_neg hpr]
      intro hm
      rcases List.mem_append.mp hm with hm1 | hm2
      · exact (hpath_a _ hm1).1 rfl
      · rcases List.mem_cons.mp hm2 with he | hm3
        · exact absurd he (by decide)
        · rcases hparams_a with hp0 | ⟨_, hpa⟩
          · exact absurd (by simp [hp0]) hpr
          · exact (hpa _ hm3).1 rfl
  have hB_noH : '#' ∉ pathParams p := by
    rw [pathParams]
    by_cases hpr : p.params.isEmpty = true
    · rw [if_pos hpr]
      exact fun hm => (hpath_a _ hm).2.1 rfl
    · rw [if_neg hpr]
      intro hm
      rcases List.mem_append.mp hm with hm1 | hm2
      · exact (hpath_a _ hm1).2.1 rfl
      · rcases List.mem_cons.mp hm2 with he | hm3
        · exact absurd he (by decide)
        · rcases hparams_a with hp0 | ⟨_, hpa⟩
          · exact absurd (by simp [hp0]) hpr
          · exact (hpa _ hm3).2.1 rfl
  have hBQ_noH : '#' ∉ pathParams p ++ qtailOf p := by
    intro hm
    rcases List.mem_append.mp hm with hm1 | hm2
    · exact hB_noH hm1
    · rw [qtailOf] at hm2
      by_cases hq : p.query.isEmpty = true
      · rw [if_pos hq] at hm2; cases hm2
      · rw [if_neg hq] at hm2
        rcases List.mem_cons.mp hm2 with he | hm3
        · exact absurd he (by decide)
        · exact hquery_a _ hm3 rfl
  have st5 : splitParamsFn (pathParams p) = (p.path, p.params) := by
    by_cases hpr : p.params.isEmpty = true
    · have hp0 : p.params = [] := by simpa using hpr
      rw [pathParams, if_pos hpr, hp0]
      exact splitParamsFn_of_no_semi (fun hm => (hpath_a _ hm).2.2 rfl)
    · rcases hparams_a with hp0 | ⟨hpne, hpa⟩
      · exact absurd (by simp [hp0]) hpr
      · rw [pathParams, if_neg hpr]
        apply splitParamsFn_append
        · exact fun hm => (hpath_a _ hm).2.2 rfl
        · cases hpath : p.path with
          | nil => exact absurd hpath hpne
          | cons c rest =>
            have hcs : c = '/' := by
              rcases (Bool.or_eq_true _ _).mp h5 with hp | hp
              · rw [hpath] at hp; simp at hp
              · rw [hpath] at hp; simpa using hp
            rw [hcs]
            exact List.mem_cons_self _ _
        · exact fun hm => (hpa _ hm).2.2 rfl
  have st4 : splitQueryFn (pathParams p ++ qtailOf p) = (pathParams p, p.query) := by
    by_cases hq : p.query.isEmpty = true
    · have hq0 : p.query = [] := by simpa using hq
      rw [qtailOf, if_pos hq, List.append_nil, hq0]
      exact splitQueryFn_of_not_mem hB_noQ
    · rw [qtailOf, if_neg hq]
      exact splitQueryFn_append hB_noQ
  have st3 : splitFragmentFn (pathParams p ++ (qtailOf p ++ ftailOf p))
      = (pathParams p ++ qtailOf p, p.fragment) := by
    by_cases hf : p.fragment.isEmpty = true
    · have hf0 : p.fragment = [] := by simpa using hf
      rw [ftailOf, if_pos hf, List.append_nil, hf0]
      exact splitFragmentFn_of_not_mem hBQ_noH
    · rw [ftailOf, if_neg hf, ← List.append_assoc]
      exact splitFragmentFn_append hBQ_noH
  have st2 : splitNetlocFn
        ('/' :: '/' :: (p.netloc ++ (pathParams p ++ (qtailOf p ++ ftailOf p))))
      = (p.netloc, pathParams p ++ (qtailOf p ++ ftailOf p)) := by
    apply splitNetlocFn_spec h4
    rcases hshape with hB0 | ⟨t, hBt⟩
    · rw [hB0, List.nil_append]
      by_cases hq : p.query.isEmpty = true
      · rw [qtailOf, if_pos hq, List.nil_append]
        by_cases hf : p.fragment.isEmpty = true
        · rw [ftailOf, if_pos hf]; left; rfl
        · rw [ftailOf, if_neg hf]; right; exact ⟨'#', _, rfl, by decide⟩
      · rw [qtailOf, if_neg hq, List.cons_append]
        right; exact ⟨'?', _, rfl, by decide⟩
    · rw [hBt, List.cons_append]
      right; exact ⟨'/', _, rfl, by decide⟩
  have st1 : splitSchemeFn
        (p.scheme ++ ':' :: ('/' :: '/' :: (p.netloc ++ (pathParams p ++ (qtailOf p ++ ftailOf p)))))
      = (p.scheme, '/' :: '/' :: (p.netloc ++ (pathParams p ++ (qtailOf p ++ ftailOf p)))) :=
    splitSchemeFn_spec hsch hc0 h2
  rw [urlunparseCh_form h]
  simp only [urlparseCh, st1, st2, st3, st4, st5]

/-! ## Valid URLs and facts about the rebuilt query string -/

/-- All characters in the ASCII range, the alphabet of RFC-3986 URLs. -/
def asciiStr (l : List Char) : Bool := l.all (fun c => c.toNat < 128)

/-- A valid URL for the purposes of the normalizer theorems: ASCII and
parsing into well-formed components (nonempty scheme and host, absolute
separator-free path).  Ordinary absolute http/https URLs satisfy this. -/
def validUrlCh (u : List Char) : Bool := asciiStr u && wfParts (urlparseCh u)

theorem toNat_ofNat_byte {n : Nat} (h : n < 256) : (Char.ofNat n).toNat = n := by
  have hv : n.isValidChar := Or.inl (by omega)
  simp [Char.ofNat, hv, Char.toNat, Char.ofNatAux, UInt32.toNat, UInt32.ofNatCore]

theorem splitAllOn_of_not_mem {d : Char} {l : List Char} (h : d ∉ l) :
    splitAllOn d l = [l] := by
  induction l with
  | nil => rfl
  | cons c rest ih =>
    simp only [List.mem_cons, not_or] at h
    rw [splitAllOn]
    simp only [if_neg (Ne.symm h.1)]
    rw [ih h.2]

theorem all_dropWhile {p q : Char → Bool} {l : List Char} (h : l.all p = true) :
    (l.dropWhile q).all p = true := by
  induction l with
  | nil => rfl
  | cons c rest ih =>
    simp only [List.all_cons, Bool.and_eq_true] at h
    rw [List.dropWhile_cons]
    by_cases hq : q c = true
    · simp only [hq, if_true]
      exact ih h.2
    · simp only [hq, if_false]
      simp [h.1, h.2]

theorem splitSchemeFn_snd_all {p : Char → Bool} {l : List Char} (h : l.all p = true) :
    (splitSchemeFn l).2.all p = true := by
  rw [splitSchemeFn]
  cases hs : splitAtFirst ':' l with
  | none => exact h
  | some pr =>
    obtain ⟨pre, rest⟩ := pr
    dsimp only
    split
    · exact (splitAtFirst_all hs h).2
    · exact h

theorem splitNetlocFn_snd_all {p : Char → Bool} {l : List Char} (h : l.all p = true) :
    (splitNetlocFn l).2.all p = true := by
  cases l with
  | nil => exact h
  | cons c1 t1 =>
    cases t1 with
    | nil => exact h
    | cons c2 rest =>
      rw [splitNetlocFn]
      split
      · simp only [List.all_cons, Bool.and_eq_true] at h
        exact all_dropWhile h.2.2
      · exact h

theorem splitFragmentFn_fst_all {p : Char → Bool} {l : List Char} (h : l.all p = true) :
    (splitFragmentFn l).1.all p = true := by
  rw [splitFragmentFn]
  cases hs : splitAtFirst '#' l with
  | none => exact h
  | some pr =>
    obtain ⟨a, b⟩ := pr
    exact (splitAtFirst_all hs h).1

theorem splitQueryFn_snd_all {p : Char → Bool} {l : List Char} (h : l.all p = true) :
    (splitQueryFn l).2.all p = true := by
  rw [splitQueryFn]
  cases hs : splitAtFirst '?' l with
  | none => rfl
  | some pr =>
    obtain ⟨a, b⟩ := pr
    exact (splitAtFirst_all hs h).2

/-- The query component consists of characters of the input URL, so an
ASCII URL has an ASCII query. -/
theorem urlparseCh_query_ascii {u : List Char} (h : asciiStr u = true) :
    (urlparseCh u).query.all (fun c => c.toNat < 128) = true := by
  rw [asciiStr] at h
  rw [urlparseCh]
  exact splitQueryFn_snd_all (splitFragmentFn_fst_all (splitNetlocFn_snd_all
    (splitSchemeFn_snd_all h)))

theorem hexDigitVal_lt16 {c : Char} {n : Nat} (h : hexDigitVal c = some n) : n < 16 := by
  rw [hexDigitVal] at h
  split at h
  · next hr =>
    have h1 : 48 ≤ c.toNat := hr.1
    have h2 : c.toNat ≤ 57 := hr.2
    injection h with h
    omega
  · split at h
    · next hr =>
      have h1 : 65 ≤ c.toNat := hr.1
      have h2 : c.toNat ≤ 70 := hr.2
      injection h with h
      omega
    · split at h
      · next hr =>
        have h1 : 97 ≤ c.toNat := hr.1
        have h2 : c.toNat ≤ 102 := hr.2
        injection h with h
        omega
      · cases h

theorem unqAux_ne_nil {st : Option (Option Char)} {l : List Char}
    (h : l ≠ [] ∨ st ≠ none) : unqAux st l ≠ [] := by
  induction l generalizing st with
  | nil =>
    rcases h with h | h
    · exact absurd rfl h
    · cases st with
      | none => exact absurd rfl h
      | some s1 => cases s1 <;> simp [unqAux, unqFlush]
  | cons c rest ih =>
    cases st with
    | none =>
      rw [unqAux]
      split
      · exact ih (Or.inr (by simp))
      · simp
    | some s1 =>
      cases s1 with
      | none =>
        rw [unqAux]
        split
        · exact ih (Or.inr (by simp))
        · split <;> simp
      | some h1 =>
        rw [unqAux]
        split
        · simp
        · split <;> simp

/-- Byte-range invariant for the decoder state. -/
def stByte : Option (Option Char) → Prop
  | some (some h1) => h1.toNat < 256
  | _ => True

theorem unqAux_all_byte {st : Option (Option Char)} {l : List Char}
    (hl : ∀ c ∈ l, c.toNat < 256) (hst : stByte st) :
    ∀ c ∈ unqAux st l, c.toNat < 256 := by
  induction l generalizing st with
  | nil =>
    cases st with
    | none => simp [unqAux, unqFlush]
    | some s1 =>
      cases s1 with
      | none =>
        simp only [unqAux, unqFlush]
        intro c hc
        simp at hc
        subst hc
        decide
      | some h1 =>
        simp only [unqAux, unqFlush]
        intro c hc
        rcases List.mem_cons.mp hc with rfl | hc2
        · decide
        · simp at hc2
          subst hc2
          exact hst
  | cons c rest ih =>
    have hc : c.toNat < 256 := hl c (List.mem_cons_self _ _)
    have hrest : ∀ x ∈ rest, x.toNat < 256 := fun x hx => hl x (List.mem_cons_of_mem _ hx)
    cases st with
    | none =>
      rw [unqAux]
      split
      · exact ih hrest (show stByte (some none) from trivial)
      · intro x hx
        rcases List.mem_cons.mp hx with rfl | hx2
        · exact hc
        · exact ih hrest (show stByte (none) from trivial) x hx2
    | some s1 =>
      cases s1 with
      | none =>
        rw [unqAux]
        split
        · exact ih hrest (show stByte (some (some c)) from by simpa [stByte] using hc)
        · split
          · intro x hx
            rcases List.mem_cons.mp hx with rfl | hx2
            · decide
            · exact ih hrest (show stByte (some none) from trivial) x hx2
          · intro x hx
            rcases List.mem_cons.mp hx with rfl | hx2
            · decide
            · rcases List.mem_cons.mp hx2 with rfl | hx3
              · exact hc
              · exact ih hrest (show stByte (none) from trivial) x hx3
      | some h1 =>
        rw [unqAux]
        split
        · next a b ha hb =>
          intro x hx
          rcases List.mem_cons.mp hx with rfl | hx2
          · have hb16 := hexDigitVal_lt16 hb
            have ha16 := hexDigitVal_lt16 ha
            rw [toNat_ofNat_byte (by omega)]
            omega
          · exact ih hrest (show stByte (none) from trivial) x hx2
        · split
          · intro x hx
            rcases List.mem_cons.mp hx with rfl | hx2
            · decide
            · rcases List.mem_cons.mp hx2 with rfl | hx3
              · exact hst
              · exact ih hrest (show stByte (some none) from trivial) x hx3
          · intro x hx
            rcases List.mem_cons.mp hx with rfl | hx2
            · decide
            · rcases List.mem_cons.mp hx2 with rfl | hx3
              · exact hst
              · rcases List.mem_cons.mp hx3 with rfl | hx4
                · exact hc
                · exact ih hrest (show stByte (none) from trivial) x hx4

theorem unquotePlus_ne_nil {l : List Char} (h : l ≠ []) : unquotePlusCh l ≠ [] := by
  rw [unquotePlusCh]
  apply unqAux_ne_nil
  left
  intro hm
  exact h (by simpa [plusToSpace] using hm)

theorem unquotePlus_all_byte {l : List Char} (hl : ∀ c ∈ l, c.toNat < 128) :
    ∀ c ∈ unquotePlusCh l, c.toNat < 256 := by
  rw [unquotePlusCh]
  apply unqAux_all_byte _ (show stByte none from trivial)
  intro c hc
  rw [plusToSpace] at hc
  rcases List.mem_map.mp hc with ⟨a, ha, hEq⟩
  by_cases hap : (a == '+') = true
  · rw [if_pos hap] at hEq
    subst hEq
    decide
  · rw [if_neg hap] at hEq
    subst hEq
    exact lt_of_lt_of_le (hl a ha) (by omega)

theorem cleanCh_elim {c : Char} (h : cleanCh c = true) :
    c ≠ '#' ∧ c ≠ '&' ∧ c ≠ '=' ∧ c ≠ '?' ∧ c ≠ ';' ∧ c ≠ '/' := by
  rw [cleanCh] at h
  simp only [Bool.and_eq_true, bne_iff_ne, ne_eq] at h
  exact ⟨h.1.1.1.1.1, h.1.1.1.1.2, h.1.1.1.2, h.1.1.2, h.1.2, h.2⟩

/-- Parsing the rebuilt one-parameter query string recovers exactly the
`v` binding. -/
theorem parseQsl_rebuilt {val : List Char} (hne : val ≠ [])
    (hb : ∀ c ∈ val, c.toNat < 256) :
    parseQsl (urlencode1 ['v'] val) = [(['v'], val)] := by
  have hclean := quotePlusCh_all_clean hb
  have hAmp : '&' ∉ 'v' :: '=' :: quotePlusCh val := by
    intro hm
    rcases List.mem_cons.mp hm with he | hm2
    · exact absurd he (by decide)
    · rcases List.mem_cons.mp hm2 with he | hm3
      · exact absurd he (by decide)
      · exact (cleanCh_elim (List.all_eq_true.mp hclean _ hm3)).2.1 rfl
  have hq : urlencode1 ['v'] val = 'v' :: '=' :: quotePlusCh val := rfl
  rw [parseQsl, hq, splitAllOn_of_not_mem hAmp]
  have hsplit : splitAtFirst '=' ('v' :: '=' :: quotePlusCh val)
      = some (['v'], quotePlusCh val) :=
    @splitAtFirst_append '=' ['v'] (quotePlusCh val) (by decide)
  have hvne : (quotePlusCh val).isEmpty = false := by
    cases hqp : quotePlusCh val with
    | nil => exact absurd hqp (quotePlusCh_ne_nil hne)
    | cons a b => rfl
  rw [List.filterMap]
  simp only [List.isEmpty_cons, Bool.false_eq_true, if_false, hsplit, hvne]
  rw [show unquotePlusCh ['v'] = ['v'] from rfl, unquotePlus_quotePlus hb]
  rfl

theorem firstV_singleton {val : List Char} :
    firstV [(['v'], val)] = some val := by
  rw [firstV]
  simp [List.find?]

/-- Any value delivered by `firstV` on an ASCII query string is nonempty and
byte-ranged: what `parse_qs` hands to `urlencode` in the normalizer. -/
theorem firstV_facts {q v : List Char} (hq : q.all (fun c => c.toNat < 128) = true)
    (h : firstV (parseQsl q) = some v) : v ≠ [] ∧ ∀ c ∈ v, c.toNat < 256 := by
  rw [firstV] at h
  cases hf : (parseQsl q).find? (fun p => p.1 == ['v']) with
  | none => rw [hf] at h; cases h
  | some pr =>
    rw [hf] at h
    simp at h
    have hmem : pr ∈ parseQsl q := List.mem_of_find?_eq_some hf
    rw [parseQsl] at hmem
    rcases List.mem_filterMap.mp hmem with ⟨field, hfield, hfeq⟩
    have hfall : field.all (fun c => c.toNat < 128) = true :=
      splitAllOn_all hq field hfield
    by_cases hfe : field.isEmpty = true
    · rw [if_pos hfe] at hfeq; cases hfeq
    · rw [if_neg hfe] at hfeq
      cases hsp : splitAtFirst '=' field with
      | none => rw [hsp] at hfeq; cases hfeq
      | some nv =>
        obtain ⟨n0, rawv⟩ := nv
        rw [hsp] at hfeq
        dsimp only at hfeq
        by_cases hve : rawv.isEmpty = true
        · rw [if_pos hve] at hfeq; cases hfeq
        · rw [if_neg hve] at hfeq
          have hrawall : rawv.all (fun c => c.toNat < 128) = true :=
            (splitAtFirst_all hsp hfall).2
          have hpr : pr = (unquotePlusCh n0, unquotePlusCh rawv) := by
            injection hfeq with h1
            exact h1.symm
          have hv : v = unquotePlusCh rawv := by
            rw [← h, hpr]
          have hrne : rawv ≠ [] := by
            cases hrv : rawv with
            | nil => rw [hrv] at hve; exact absurd rfl hve
            | cons a b => simp
          constructor
          · rw [hv]
            exact unquotePlus_ne_nil hrne
          · rw [hv]
            exact unquotePlus_all_byte (fun c hc => by simpa using List.all_eq_true.mp hrawall _ hc)

/-- Central fact: when a `v` parameter is present in a well-formed URL, the
normalizer rebuilds the URL with query exactly `v=<first value>`, and the
rebuilt URL re-parses to those exact components; normalizing again is a
fixed point. -/
theorem normalize_v_case {u : List Char} (hvalid : validUrlCh u = true)
    {v0 : List Char} (hv : firstV (parseQsl (urlparseCh u).query) = some v0) :
    normalizeYoutubeUrlCh u
      = urlunparseCh { urlparseCh u with query := urlencode1 ['v'] v0 }
    ∧ urlparseCh (normalizeYoutubeUrlCh u)
      = { urlparseCh u with query := urlencode1 ['v'] v0 }
    ∧ normalizeYoutubeUrlCh (normalizeYoutubeUrlCh u) = normalizeYoutubeUrlCh u := by
  have hascii : asciiStr u = true := ((Bool.and_eq_true _ _).mp hvalid).1
  have hwf : wfParts (urlparseCh u) = true := ((Bool.and_eq_true _ _).mp hvalid).2
  have hqa := urlparseCh_query_ascii hascii
  obtain ⟨hv0ne, hv0b⟩ := firstV_facts hqa hv
  have hnewq : (urlencode1 ['v'] v0).all (fun c => c != '#') = true := by
    have hclean := quotePlusCh_all_clean hv0b
    rw [show urlencode1 ['v'] v0 = 'v' :: '=' :: quotePlusCh v0 from rfl]
    simp only [List.all_cons, Bool.and_eq_true]
    refine ⟨by decide, by decide, ?_⟩
    apply List.all_eq_true.mpr
    intro c hc
    have := (cleanCh_elim (List.all_eq_true.mp hclean _ hc)).1
    simpa using this
  have hwf' : wfParts { urlparseCh u with query := urlencode1 ['v'] v0 } = true := by
    obtain ⟨h1, h2, h3, h4, h5, h6, h7, h8⟩ := wfParts_destruct hwf
    rw [wfParts]
    dsimp only
    rw [h1, h2, h4, h5, h6, h7, hnewq, h3]
    rfl
  have hfix : normalizeYoutubeUrlCh u
      = urlunparseCh { urlparseCh u with query := urlencode1 ['v'] v0 } := by
    rw [normalizeYoutubeUrlCh]
    dsimp only
    rw [hv]
  have hround := urlparse_urlunparse hwf'
  have hqslNew : parseQsl (urlencode1 ['v'] v0) = [(['v'], v0)] :=
    parseQsl_rebuilt hv0ne hv0b
  refine ⟨hfix, ?_, ?_⟩
  · rw [hfix, hround]
  · rw [hfix]
    rw [normalizeYoutubeUrlCh]
    dsimp only
    rw [hround]
    dsimp only
    rw [hqslNew, firstV_singleton]

/-- Idempotence and component preservation of the normalizer on valid URLs:
formalization of claim C6. -/
theorem normalize_idempotent_preserves_components (u : String)
    (h : validUrlCh u.data = true) :
    normalize_youtube_url (normalize_youtube_url u) = normalize_youtube_url u
    ∧ (urlparseCh (normalize_youtube_url u).data).scheme = (urlparseCh u.data).scheme
    ∧ (urlparseCh (normalize_youtube_url u).data).netloc = (urlparseCh u.data).netloc
    ∧ (urlparseCh (normalize_youtube_url u).data).path = (urlparseCh u.data).path := by
  have hdata : (normalize_youtube_url u).data = normalizeYoutubeUrlCh u.data := rfl
  have hdouble : normalize_youtube_url (normalize_youtube_url u)
      = (⟨normalizeYoutubeUrlCh (normalizeYoutubeUrlCh u.data)⟩ : String) := rfl
  cases hv : firstV (parseQsl (urlparseCh u.data).query) with
  | none =>
    have hid : normalizeYoutubeUrlCh u.data = u.data := by
      rw [normalizeYoutubeUrlCh]
      try dsimp only
      rw [hv]
    have hnf : normalize_youtube_url u = u := by
      cases u with
      | mk d =>
        show (⟨normalizeYoutubeUrlCh d⟩ : String) = ⟨d⟩
        rw [show normalizeYoutubeUrlCh (String.mk d).data = normalizeYoutubeUrlCh d from rfl] at hid
        rw [hid]
    refine ⟨by rw [hnf, hnf], by rw [hnf], by rw [hnf], by rw [hnf]⟩
  | some v0 =>
    obtain ⟨hfix, hparse, hidem⟩ := normalize_v_case h hv
    refine ⟨?_, ?_, ?_, ?_⟩
    · rw [hdouble]
      cases u with
      | mk d =>
        show (⟨normalizeYoutubeUrlCh (normalizeYoutubeUrlCh d)⟩ : String)
          = ⟨normalizeYoutubeUrlCh d⟩
        rw [show normalizeYoutubeUrlCh (normalizeYoutubeUrlCh (String.mk d).data)
            = normalizeYoutubeUrlCh (normalizeYoutubeUrlCh d) from rfl] at hidem
        rw [hidem]
    · rw [hdata, hparse]
    · rw [hdata, hparse]
    · rw [hdata, hparse]

/-! ## The known media-sharing domain set (src/app/worker.py) -/

/-- `YOUTUBE_DOMAINS` from src/app/worker.py. -/
def YOUTUBE_DOMAINS : List String := ["youtube.com", "youtu.be"]

/-- Domain recognition as written in src/app/worker.py:
`any(domain in url for domain in YOUTUBE_DOMAINS)` (substring containment). -/
def isYoutubeUrl (url : String) : Bool :=
  YOUTUBE_DOMAINS.any (fun d => decide (List.IsInfix d.data url.data))

/-- The normalizer keys on the presence of a `v` query parameter, not on the
domain: with a `v` parameter the query is reduced to exactly that parameter
with all other components preserved, and without one the URL is returned
unchanged.  Formalization of the amended claim C7. -/
theorem normalize_keys_on_v_param (u : String) (h : validUrlCh u.data = true) :
    (firstV (parseQsl (urlparseCh u.data).query) = none → normalize_youtube_url u = u)
    ∧ (∀ v0, firstV (parseQsl (urlparseCh u.data).query) = some v0 →
        urlparseCh (normalize_youtube_url u).data
          = { urlparseCh u.data with query := urlencode1 ['v'] v0 }) := by
  constructor
  · intro hv
    have hid : normalizeYoutubeUrlCh u.data = u.data := by
      rw [normalizeYoutubeUrlCh]
      try dsimp only
      rw [hv]
    cases u with
    | mk d =>
      show (⟨normalizeYoutubeUrlCh d⟩ : String) = ⟨d⟩
      rw [show normalizeYoutubeUrlCh (String.mk d).data = normalizeYoutubeUrlCh d from rfl] at hid
      rw [hid]
  · intro v0 hv
    obtain ⟨hfix, hparse, hidem⟩ := normalize_v_case h hv
    exact hparse

/-! ## Shared mutable state

Redis hashes and the Celery result backend are modelled as association
lists over `String` keys; the history zset as a score-sorted list; the
download directory as the list of absolute paths present on disk. -/

def hget {α : Type} : List (String × α) → String → Option α
  | [], _ => none
  | (k, v) :: rest, key => if k = key then some v else hget rest key

def hset {α : Type} : List (String × α) → String → α → List (String × α)
  | [], key, v => [(key, v)]
  | (k, w) :: rest, key, v =>
    if k = key then (key, v) :: rest else (k, w) :: hset rest key v

def hdel {α : Type} : List (String × α) → String → List (String × α)
  | [], _ => []
  | (k, w) :: rest, key =>
    if k = key then hdel rest key else (k, w) :: hdel rest key

/-- Redis zset ordering: score ascending, ties by member lexicographically. -/
def zscoreLt (a b : String × Nat) : Bool :=
  decide (a.2 < b.2) || (a.2 == b.2 && decide (a.1 < b.1))

def zinsert : (String × Nat) → List (String × Nat) → List (String × Nat)
  | e, [] => [e]
  | e, x :: rest => if zscoreLt e x then e :: x :: rest else x :: zinsert e rest

def zrem (z : List (String × Nat)) (member : String) : List (String × Nat) :=
  z.filter (fun x => x.1 != member)

def zadd (z : List (String × Nat)) (member : String) (score : Nat) : List (String × Nat) :=
  zinsert (member, score) (zrem z member)

def zmembers (z : List (String × Nat)) : List String := z.map Prod.fst

/-- Task lifecycle states as reported by the Celery result backend. -/
inductive TaskStatus where
  | pending
  | started
  | success
  | failure
deriving DecidableEq, Repr

/-- The loosely-typed result dict returned by the workers: every key may be
absent, as consumers access it with `.get`. -/
structure DlResult where
  status : Option String
  filepath : Option String
  original_filename : Option String
deriving DecidableEq, Repr

/-- One entry of the Celery result backend. -/
structure TaskRecord where
  status : TaskStatus
  result : Option DlResult
  error : Option String
deriving DecidableEq, Repr

/-- The whole shared state: Celery backend, history zset
(`task_history:zset`), details hash (`task_details:hash`, its JSON value
reduced to the stored url), the `video_cache` hash, the files on disk
(absolute paths), the log of executor dispatches
(task id, original url, normalized url), and the id supply. -/
structure SysState where
  backend : List (String × TaskRecord)
  zset : List (String × Nat)
  details : List (String × String)
  cache : List (String × String)
  disk : List String
  dispatched : List (String × String × String)
  nextId : Nat
deriving DecidableEq, Repr

/-- `AsyncResult(task_id).status`: an id unknown to the backend reports
PENDING. -/
def celeryStatus : Option TaskRecord → TaskStatus
  | some t => t.status
  | none => TaskStatus.pending

/-- `AsyncResult(task_id).successful()`. -/
def successful (r : Option TaskRecord) : Bool :=
  match celeryStatus r with
  | TaskStatus.success => true
  | _ => false

/-- `AsyncResult(task_id).ready()`: a terminal state was reached. -/
def taskReady (st : TaskStatus) : Bool :=
  match st with
  | TaskStatus.success => true
  | TaskStatus.failure => true
  | _ => false

/-- `str(result)` on a failure result: the stringified exception stored for
the task. -/
def errorString (r : Option TaskRecord) : String :=
  match r with
  | some t => t.error.getD ""
  | none => ""

/-! ## Paths (os.path on the inputs used here) -/

/-- `str.startswith`, computed on the underlying character lists. -/
def startswith (s pre : String) : Bool := List.isPrefixOf pre.data s.data

/-- `os.path.abspath` for inputs free of `.`/`..` segments: absolute paths
are returned unchanged, relative ones are joined to the working
directory. -/
def abspath (cwd p : String) : String :=
  if startswith p "/" then p else cwd ++ "/" ++ p

def DOWNLOAD_DIR : String := "downloads"

/-- `DOWNLOAD_DIR_ABSPATH = os.path.abspath(DOWNLOAD_DIR)`. -/
def downloadDirAbs (cwd : String) : String := abspath cwd DOWNLOAD_DIR

/-- `os.path.exists`, resolving a possibly relative path against the
working directory. -/
def pathExists (s : SysState) (cwd p : String) : Bool :=
  s.disk.contains (abspath cwd p)

def MAX_HISTORY_SIZE : Nat := 100

/-! ## src/yt-dlp/worker.py -/

/-- Characters replaced by `_` in `sanitize_filename`
(the regex class of backslash, slash, star, question mark, colon, quote,
angle brackets and pipe). -/
def forbiddenFilenameCh (c : Char) : Bool :=
  c == '\\' || c == '/' || c == '*' || c == '?' || c == ':' || c == '"'
    || c == '<' || c == '>' || c == '|'

/-- `str.isprintable` restricted to the ASCII range handled here. -/
def isPrintableCh (c : Char) : Bool :=
  32 ≤ c.toNat && c.toNat != 127

/-- Leading/trailing strip set of `sanitize_filename`: spaces and dots. -/
def isSpaceOrDot (c : Char) : Bool := c == ' ' || c == '.'

/-- `sanitize_filename` from src/yt-dlp/worker.py: replace forbidden
characters by `_`, drop non-printable characters, strip spaces and dots at
both ends, default to `untitled` when nothing is left. -/
def sanitize_filename (filename : String) : String :=
  let s1 := filename.data.map (fun c => if forbiddenFilenameCh c then '_' else c)
  let s2 := s1.filter isPrintableCh
  let s3 := ((s2.dropWhile isSpaceOrDot).reverse.dropWhile isSpaceOrDot).reverse
  if s3.isEmpty then "untitled" else ⟨s3⟩

/-- Information the external extractor returns (`info_dict` fields the
worker reads, plus the extension used by `prepare_filename`). -/
structure ExtractInfo where
  title : Option String
  ext : String
deriving DecidableEq, Repr

set_option linter.unusedVariables false in
/-- The Celery task `download_video` of src/yt-dlp/worker.py, combined with
the effect Celery itself has on the result backend.  On executor success
the downloaded file appears on disk at the `outtmpl` path, the
`video_cache` hash maps the normalized URL to this task id, and the backend
stores a success record; on executor failure the task state becomes FAILURE
with the stringified exception and nothing else changes.  The original URL
is consumed only by the external extractor, whose outcome is the
`outcome` argument. -/
def download_video (s : SysState) (cwd task_id original_url normalized_url : String)
    (outcome : Except String ExtractInfo) : SysState :=
  match outcome with
  | Except.ok info =>
    let filepath := DOWNLOAD_DIR ++ "/" ++ task_id ++ "." ++ info.ext
    let title := info.title.getD task_id
    let original_filename := sanitize_filename title ++ "." ++ info.ext
    { s with
      cache := hset s.cache normalized_url task_id,
      backend := hset s.backend task_id
        { status := TaskStatus.success,
          result := some
            { status := some "COMPLETED",
              filepath := some filepath,
              original_filename := some original_filename },
          error := none },
      disk := abspath cwd filepath :: s.disk }
  | Except.error msg =>
    { s with
      backend := hset s.backend task_id
        { status := TaskStatus.failure, result := none, error := some msg } }

/-! ## src/yt-dlp/main.py -/

/-- `add_task_to_history`: zadd + hset, trim the zset to the last
`MAX_HISTORY_SIZE` ranks (`ZREMRANGEBYRANK key 0 -MAX-1`), then delete
every hash field whose id is no longer in the zset. -/
def add_task_to_history (s : SysState) (task_id url : String) (now : Nat) : SysState :=
  let zset1 := zadd s.zset task_id now
  let details1 := hset s.details task_id url
  let zset2 := zset1.drop (zset1.length - MAX_HISTORY_SIZE)
  let details2 := details1.filter (fun kv => (zmembers zset2).contains kv.1)
  { s with zset := zset2, details := details2 }

/-- The JSON body of the status endpoint, with the HTTP code. -/
structure StatusResponse where
  code : Nat
  task_id : String
  status : TaskStatus
  url : Option String
  details_result : Option DlResult
  details_error : Option String
  download_url : Option String
deriving DecidableEq, Repr

/-- `get_task_status` of src/yt-dlp/main.py: always HTTP 200; the status
comes from the backend (PENDING when unknown), the url from the details
hash; details and download link only on terminal states. -/
def get_task_status (s : SysState) (task_id : String) : StatusResponse :=
  let r := hget s.backend task_id
  let st := celeryStatus r
  let url := hget s.details task_id
  let base : StatusResponse :=
    { code := 200, task_id := task_id, status := st, url := url,
      details_result := none, details_error := none, download_url := none }
  if taskReady st then
    match st with
    | TaskStatus.success =>
      { base with
        details_result := r.bind TaskRecord.result,
        download_url := some ("/files/" ++ task_id) }
    | TaskStatus.failure => { base with details_error := some (errorString r) }
    | _ => base
  else base

/-- Result of a file-serving endpoint. -/
inductive GatewayResult where
  | notFound (detail : String)
  | forbidden (detail : String)
  | fileResponse (path : String) (filename : String)
deriving DecidableEq, Repr

/-- `download_file` of src/yt-dlp/main.py (identical in src/app/main.py):
404 unless the task succeeded and recorded a filepath; 403 when the
absolute path does not start with the download root's absolute path;
404 when the file is absent; otherwise serve it. -/
def download_file (s : SysState) (cwd task_id : String) : GatewayResult :=
  let r := hget s.backend task_id
  if successful r = false then
    GatewayResult.notFound "Task not found, or has failed."
  else
    match (r.bind TaskRecord.result).bind DlResult.filepath with
    | none => GatewayResult.notFound "Filepath not found in task result."
    | some fp =>
      let requested := abspath cwd fp
      if startswith requested (downloadDirAbs cwd) = false then
        GatewayResult.forbidden "Forbidden: Access to this file is not allowed."
      else if s.disk.contains requested = false then
        GatewayResult.notFound "File not found on the server."
      else
        GatewayResult.fileResponse requested
          (((r.bind TaskRecord.result).bind DlResult.original_filename).getD
            (task_id ++ ".mp4"))

/-- `download_file` of src/docker/main.py: no containment check at all;
any existing path recorded in the result is served. -/
def docker_download_file (s : SysState) (cwd task_id : String) : GatewayResult :=
  let r := hget s.backend task_id
  if successful r = false then
    GatewayResult.notFound "Task not found, not completed, or failed."
  else
    let filename := ((r.bind TaskRecord.result).bind DlResult.original_filename).getD
      (task_id ++ ".mp4")
    match (r.bind TaskRecord.result).bind DlResult.filepath with
    | none => GatewayResult.notFound "File not found on the server. It might have been deleted."
    | some fp =>
      if pathExists s cwd fp = false then
        GatewayResult.notFound "File not found on the server. It might have been deleted."
      else GatewayResult.fileResponse fp filename

/-- `delete_task` of src/yt-dlp/main.py: when the task succeeded and its
recorded file exists, remove the file provided its absolute path starts
with the download root (already-missing files are skipped, never raising);
then remove the zset and hash history entries and forget the backend
entry.  The `video_cache` hash is not touched. -/
def delete_task (s : SysState) (cwd task_id : String) : SysState :=
  let r := hget s.backend task_id
  let s1 :=
    if successful r then
      match (r.bind TaskRecord.result).bind DlResult.filepath with
      | some fp =>
        if pathExists s cwd fp then
          if startswith (abspath cwd fp) (downloadDirAbs cwd) then
            { s with disk := s.disk.erase (abspath cwd fp) }
          else s
        else s
      | none => s
    else s
  { s1 with
    zset := zrem s1.zset task_id,
    details := hdel s1.details task_id,
    backend := hdel s1.backend task_id }

/-! ## The submission/dedup protocol (spec section 4.2) -/

/-- Fresh job id from the id supply. -/
def freshId (n : Nat) : String := "task-" ++ toString n

/-- Modelled from the spec: validity of a cached job id — the referenced
job is success-state and its result file still exists on disk (spec
section 3, Cache Entry invariant; re-checked on every read).  The repository
has no submit handler matching the two-argument worker of
src/yt-dlp/worker.py under src/, so the consumer of this check is modelled
from spec section 4.2. -/
def validHitAt (s : SysState) (cwd cid : String) : Bool :=
  match hget s.backend cid with
  | some t =>
    (match t.status with | TaskStatus.success => true | _ => false)
    && (match t.result with
        | some res =>
          (match res.filepath with
           | some fp => pathExists s cwd fp
           | none => false)
        | none => false)
  | none => false

/-- Modelled from the spec: a cache lookup for a normalized URL that is a
valid hit (spec section 4.2 step 2a). -/
def validCacheHit (s : SysState) (cwd key : String) : Bool :=
  match hget s.cache key with
  | some cid => validHitAt s cwd cid
  | none => false

/-- Modelled from the spec: the cache-miss path of `submit` (spec section
4.2 step 3): fresh id, pending job, history entry, asynchronous dispatch of
the executor with (original url, normalized key). -/
def submitFresh (s : SysState) (original_url key : String) (now : Nat) :
    String × Bool × SysState :=
  let id := freshId s.nextId
  let s1 := { s with
    backend := hset s.backend id
      { status := TaskStatus.pending, result := none, error := none },
    nextId := s.nextId + 1 }
  let s2 := add_task_to_history s1 id original_url now
  (id, true, { s2 with dispatched := (id, original_url, key) :: s2.dispatched })

/-- Modelled from the spec: `submit(original_url) -> job_id` (spec section
4.2), the submit handler absent from src/ (src/yt-dlp/main.py passes one
argument to the two-argument worker).  Computes the normalized key with the
source's `normalize_youtube_url`, reuses a valid cached job id (appending a
history entry with the current request's original URL) without dispatching,
and otherwise dispatches a fresh job.  The returned boolean records whether
the executor was dispatched. -/
def submit (s : SysState) (cwd original_url : String) (now : Nat) :
    String × Bool × SysState :=
  let key := normalize_youtube_url original_url
  match hget s.cache key with
  | some cid =>
    if validHitAt s cwd cid then
      (cid, false, add_task_to_history s cid original_url now)
    else submitFresh s original_url key now
  | none => submitFresh s original_url key now

/-! ## The retry policy of src/app/worker.py -/

/-- Outcome of one executor attempt: success, a retryable
`yt_dlp.utils.DownloadError`, or any other exception. -/
inductive ExecOutcome where
  | ok (info : ExtractInfo)
  | downloadErr (msg : String)
  | otherErr (msg : String)
deriving DecidableEq, Repr

/-- Terminal result of the task including its automatic retries. -/
inductive RetryFinal where
  | succeeded (info : ExtractInfo)
  | failed (msg : String)
deriving DecidableEq, Repr

namespace AppWorker

/-- `retry_backoff=60` of the task decorator in src/app/worker.py. -/
def retry_backoff : Nat := 60

/-- Celery's default `retry_backoff_max` (600 seconds), in effect since the
decorator does not override it. -/
def retry_backoff_max : Nat := 600

/-- `max_retries=3` of the task decorator. -/
def max_retries : Nat := 3

/-- Celery's `get_exponential_backoff_interval`: factor doubled per retry,
capped. -/
def backoffInterval (retries : Nat) : Nat :=
  min retry_backoff_max (retry_backoff * 2 ^ retries)

/-- With `retry_jitter=True` Celery draws the countdown uniformly from
`[0, interval]` (`random.randrange(countdown + 1)`); the randomness is an
oracle argument. -/
def jitteredCountdown (jit : Nat → Nat) (retries : Nat) : Nat :=
  jit retries % (backoffInterval retries + 1)

/-- Celery's autoretry loop for
`autoretry_for=(DownloadError,), max_retries=3`: run the body; on
`DownloadError` retry with the jittered backoff countdown while retries
remain; any other exception propagates immediately.  Returns the number of
executions, the countdowns slept between them, and the terminal result. -/
def retryRun (outcomes : Nat → ExecOutcome) (jit : Nat → Nat) :
    Nat → Nat → Nat × List Nat × RetryFinal
  | attempt, fuel =>
    match outcomes attempt with
    | ExecOutcome.ok info => (attempt + 1, [], RetryFinal.succeeded info)
    | ExecOutcome.otherErr msg => (attempt + 1, [], RetryFinal.failed msg)
    | ExecOutcome.downloadErr msg =>
      match fuel with
      | 0 => (attempt + 1, [], RetryFinal.failed msg)
      | fuel' + 1 =>
        let r := retryRun outcomes jit (attempt + 1) fuel'
        (r.1, jitteredCountdown jit attempt :: r.2.1, r.2.2)

/-- The `download_video` task of src/app/worker.py as seen through its
retry decorator. -/
def download_video (outcomes : Nat → ExecOutcome) (jit : Nat → Nat) :
    Nat × List Nat × RetryFinal :=
  retryRun outcomes jit 0 max_retries

theorem retryRun_bounds (outcomes : Nat → ExecOutcome) (jit : Nat → Nat)
    (fuel attempt : Nat) :
    attempt < (retryRun outcomes jit attempt fuel).1
    ∧ (retryRun outcomes jit attempt fuel).1 ≤ attempt + fuel + 1
    ∧ (retryRun outcomes jit attempt fuel).2.1
      = (List.range ((retryRun outcomes jit attempt fuel).1 - attempt - 1)).map
          (fun i => jitteredCountdown jit (attempt + i)) := by
  induction fuel generalizing attempt with
  | zero =>
    rw [retryRun]
    cases outcomes attempt <;> simp
  | succ fuel ih =>
    rw [retryRun]
    cases outcomes attempt with
    | ok info => simp
    | otherErr msg => simp
    | downloadErr msg =>
      dsimp only
      obtain ⟨ih1, ih2, ih3⟩ := ih (attempt + 1)
      refine ⟨by omega, by omega, ?_⟩
      have hlen : (retryRun outcomes jit (attempt + 1) fuel).1 - attempt - 1
          = ((retryRun outcomes jit (attempt + 1) fuel).1 - (attempt + 1) - 1) + 1 := by
        omega
      rw [hlen, List.range_succ_eq_map, List.map_cons]
      congr 1
      rw [ih3, List.map_map]
      apply List.map_congr_left
      intro i hi
      simp only [Function.comp_apply]
      congr 1
      omega

end AppWorker

/-! ## Helper lemmas about the state model -/

theorem hget_hset_self {α : Type} (m : List (String × α)) (k : String) (v : α) :
    hget (hset m k v) k = some v := by
  induction m with
  | nil => simp [hset, hget]
  | cons kv rest ih =>
    obtain ⟨k0, v0⟩ := kv
    by_cases hk : k0 = k
    · simp [hset, hget, hk]
    · simp only [hset, if_neg hk]
      simp only [hget, if_neg hk]
      exact ih

theorem hget_hdel_self {α : Type} (m : List (String × α)) (k : String) :
    hget (hdel m k) k = none := by
  induction m with
  | nil => rfl
  | cons kv rest ih =>
    obtain ⟨k0, v0⟩ := kv
    by_cases hk : k0 = k
    · simp only [hdel, if_pos hk]
      exact ih
    · simp only [hdel, if_neg hk]
      simp only [hget, if_neg hk]
      exact ih

theorem zrem_contains_self_false (z : List (String × Nat)) (member : String) :
    (zmembers (zrem z member)).contains member = false := by
  rw [zrem, zmembers]
  induction z with
  | nil => rfl
  | cons e rest ih =>
    rw [List.filter_cons]
    by_cases hp : (e.1 != member) = true
    · rw [if_pos hp, List.map_cons, List.contains_cons]
      have hne : (member == e.1) = false := by
        simp only [bne_iff_ne, ne_eq] at hp
        exact beq_eq_false_iff_ne.mpr (fun h => hp h.symm)
      rw [hne]
      simp only [Bool.false_or]
      exact ih
    · rw [if_neg hp]
      exact ih

theorem add_task_to_history_dispatched (s : SysState) (tid url : String) (now : Nat) :
    (add_task_to_history s tid url now).dispatched = s.dispatched := rfl

theorem add_task_to_history_cache (s : SysState) (tid url : String) (now : Nat) :
    (add_task_to_history s tid url now).cache = s.cache := rfl

/-- The status endpoint on an id the backend does not know: HTTP 200,
status PENDING, no details, no download link. -/
theorem get_task_status_of_backend_none {s : SysState} {task_id : String}
    (h : hget s.backend task_id = none) :
    get_task_status s task_id
      = { code := 200, task_id := task_id, status := TaskStatus.pending,
          url := hget s.details task_id, details_result := none,
          details_error := none, download_url := none } := by
  rw [get_task_status, h]
  rfl

theorem delete_task_shape (s : SysState) (cwd tid : String) :
    (delete_task s cwd tid).backend = hdel s.backend tid
    ∧ (delete_task s cwd tid).zset = zrem s.zset tid
    ∧ (delete_task s cwd tid).details = hdel s.details tid
    ∧ (delete_task s cwd tid).cache = s.cache
    ∧ (delete_task s cwd tid).dispatched = s.dispatched
    ∧ ((delete_task s cwd tid).disk = s.disk
       ∨ ∃ q, (delete_task s cwd tid).disk = s.disk.erase q) := by
  rw [delete_task]
  dsimp only
  split
  · split
    · split
      · split
        · exact ⟨rfl, rfl, rfl, rfl, rfl, Or.inr ⟨_, rfl⟩⟩
        · exact ⟨rfl, rfl, rfl, rfl, rfl, Or.inl rfl⟩
      · exact ⟨rfl, rfl, rfl, rfl, rfl, Or.inl rfl⟩
    · exact ⟨rfl, rfl, rfl, rfl, rfl, Or.inl rfl⟩
  · exact ⟨rfl, rfl, rfl, rfl, rfl, Or.inl rfl⟩

theorem delete_task_disk_removes {s : SysState} {cwd tid : String}
    {t : TaskRecord} {res : DlResult} {fp : String}
    (hr : hget s.backend tid = some t) (hst : t.status = TaskStatus.success)
    (hres : t.result = some res) (hfp : res.filepath = some fp)
    (hex : pathExists s cwd fp = true)
    (hin : startswith (abspath cwd fp) (downloadDirAbs cwd) = true) :
    (delete_task s cwd tid).disk = s.disk.erase (abspath cwd fp) := by
  have hsucc : successful (hget s.backend tid) = true := by
    rw [hr]
    simp [successful, celeryStatus, hst]
  have hfpath : ((hget s.backend tid).bind TaskRecord.result).bind DlResult.filepath
      = some fp := by
    rw [hr]
    simp [Option.bind, hres, hfp]
  rw [delete_task]
  dsimp only
  rw [hsucc, if_pos rfl, hfpath]
  dsimp only
  rw [hex, if_pos rfl, hin, if_pos rfl]

theorem cache_after_ok (s : SysState) (cwd tid u nu : String) (info : ExtractInfo) :
    hget (download_video s cwd tid u nu (Except.ok info)).cache nu = some tid := by
  rw [download_video]
  exact hget_hset_self _ _ _

theorem validHitAt_after_ok (s : SysState) (cwd tid u nu : String) (info : ExtractInfo) :
    validHitAt (download_video s cwd tid u nu (Except.ok info)) cwd tid = true := by
  rw [validHitAt, download_video]
  dsimp only
  rw [hget_hset_self]
  dsimp only
  rw [show pathExists
      { s with
        cache := hset s.cache nu tid,
        backend := hset s.backend tid
          { status := TaskStatus.success,
            result := some
              { status := some "COMPLETED",
                filepath := some (DOWNLOAD_DIR ++ "/" ++ tid ++ "." ++ info.ext),
                original_filename := some
                  (sanitize_filename (info.title.getD tid) ++ "." ++ info.ext) },
            error := none },
        disk := abspath cwd (DOWNLOAD_DIR ++ "/" ++ tid ++ "." ++ info.ext) :: s.disk }
      cwd (DOWNLOAD_DIR ++ "/" ++ tid ++ "." ++ info.ext) = true from by
    rw [pathExists]
    dsimp only
    simp]
  rfl

/-! ## Claim theorems -/

/-- C1: once a submission of a URL has completed with success and its
result file is still on disk, submitting any URL with the same normalized
form returns the same job id without dispatching the executor again, and a
fresh id with an executor dispatch happens only when there is no valid
cache hit for the normalized URL.  (The submit protocol is modelled from
the spec; the worker and normalizer are from src/yt-dlp/worker.py.) -/
theorem submit_cache_hit_reuses_job
    (s0 s1 s2 s3 : SysState) (cwd u1 u2 id1 id2 : String) (d1 d2 : Bool)
    (t0 t1 : Nat) (info : ExtractInfo)
    (hkey : normalize_youtube_url u2 = normalize_youtube_url u1)
    (hmiss : validCacheHit s0 cwd (normalize_youtube_url u1) = false)
    (h1 : submit s0 cwd u1 t0 = (id1, d1, s1))
    (h2 : download_video s1 cwd id1 u1 (normalize_youtube_url u1) (Except.ok info) = s2)
    (h3 : submit s2 cwd u2 t1 = (id2, d2, s3)) :
    id2 = id1 ∧ d2 = false ∧ s3.dispatched = s2.dispatched
    ∧ (∀ s u t, (submit s cwd u t).2.1 = true
        → validCacheHit s cwd (normalize_youtube_url u) = false) := by
  have hside : ∀ s u t, (submit s cwd u t).2.1 = true
      → validCacheHit s cwd (normalize_youtube_url u) = false := by
    intro s u t hflag
    rw [submit] at hflag
    try dsimp only at hflag
    cases hcc : hget s.cache (normalize_youtube_url u) with
    | none => rw [validCacheHit, hcc]
    | some cid =>
      rw [hcc] at hflag
      dsimp only at hflag
      by_cases hv : validHitAt s cwd cid = true
      · rw [if_pos hv] at hflag
        exact absurd hflag (by simp)
      · rw [validCacheHit, hcc]
        simpa using hv
  have hfresh : submitFresh s0 u1 (normalize_youtube_url u1) t0 = (id1, d1, s1) := by
    rw [submit] at h1
    try dsimp only at h1
    cases hc : hget s0.cache (normalize_youtube_url u1) with
    | none => rw [hc] at h1; exact h1
    | some cid =>
      rw [hc] at h1
      dsimp only at h1
      rw [validCacheHit, hc] at hmiss
      dsimp only at hmiss
      rw [hmiss] at h1
      simpa using h1
  rw [submitFresh] at hfresh
  try dsimp only at hfresh
  rw [Prod.mk.injEq, Prod.mk.injEq] at hfresh
  obtain ⟨hid1, hd1, hs1⟩ := hfresh
  have hc2 : hget s2.cache (normalize_youtube_url u2) = some id1 := by
    rw [hkey, ← h2]
    exact cache_after_ok _ _ _ _ _ _
  have hvh : validHitAt s2 cwd id1 = true := by
    rw [← h2]
    exact validHitAt_after_ok _ _ _ _ _ _
  rw [submit] at h3
  try dsimp only at h3
  rw [hc2] at h3
  dsimp only at h3
  rw [if_pos hvh] at h3
  rw [Prod.mk.injEq, Prod.mk.injEq] at h3
  obtain ⟨hq1, hq2, hq3⟩ := h3
  refine ⟨hq1.symm, hq2.symm, ?_, hside⟩
  rw [← hq3, add_task_to_history_dispatched]

/-- C3: after every call to the history record operation the ordered
collection holds at most `MAX_HISTORY_SIZE` entries and the details hash
holds no id absent from the ordered collection. -/
theorem history_bounded_and_no_orphans (s : SysState) (tid url : String) (now : Nat) :
    (add_task_to_history s tid url now).zset.length ≤ MAX_HISTORY_SIZE
    ∧ (add_task_to_history s tid url now).details.all
        (fun kv => (zmembers (add_task_to_history s tid url now).zset).contains kv.1)
      = true := by
  constructor
  · rw [add_task_to_history]
    dsimp only
    rw [List.length_drop]
    omega
  · rw [add_task_to_history]
    dsimp only
    apply List.all_eq_true.mpr
    intro kv hkv
    exact (List.mem_filter.mp hkv).2

/-- C5: when the executor fails, the worker records a FAILURE state carrying
the stringified cause (nonempty when the cause message is), and neither the
cache index nor the disk changes. -/
theorem worker_failure_no_cache_update
    (s : SysState) (cwd tid u nu msg : String) (hmsg : msg ≠ "") :
    hget (download_video s cwd tid u nu (Except.error msg)).backend tid
      = some { status := TaskStatus.failure, result := none, error := some msg }
    ∧ errorString (hget (download_video s cwd tid u nu (Except.error msg)).backend tid)
        ≠ ""
    ∧ (download_video s cwd tid u nu (Except.error msg)).cache = s.cache
    ∧ (download_video s cwd tid u nu (Except.error msg)).disk = s.disk := by
  have hb : hget (download_video s cwd tid u nu (Except.error msg)).backend tid
      = some { status := TaskStatus.failure, result := none, error := some msg } := by
    rw [download_video]
    exact hget_hset_self _ _ _
  refine ⟨hb, ?_, rfl, rfl⟩
  rw [hb]
  simpa [errorString] using hmsg

/-- C10: a status query for an id the backend does not know (never
submitted, or deleted) is a normal HTTP 200 response with status PENDING
and no details — not a not-found. -/
theorem unknown_task_reports_pending_200 (s : SysState) (task_id : String)
    (h : hget s.backend task_id = none) :
    (get_task_status s task_id).code = 200
    ∧ (get_task_status s task_id).status = TaskStatus.pending
    ∧ (get_task_status s task_id).details_result = none
    ∧ (get_task_status s task_id).details_error = none
    ∧ (get_task_status s task_id).download_url = none := by
  rw [get_task_status_of_backend_none h]
  exact ⟨rfl, rfl, rfl, rfl, rfl⟩

/-- The empty initial state. -/
def emptyState : SysState :=
  { backend := [], zset := [], details := [], cache := [], disk := [],
    dispatched := [], nextId := 0 }

/-- A state with one successfully completed job: its backend record, its
history entries, its cache index entry and its file on disk. -/
def deleteExampleState : SysState :=
  { backend := [("t1",
      { status := TaskStatus.success,
        result := some
          { status := some "COMPLETED",
            filepath := some "/app/downloads/t1.mp4",
            original_filename := some "video.mp4" },
        error := none })],
    zset := [("t1", 5)],
    details := [("t1", "https://www.youtube.com/watch?v=abc")],
    cache := [("https://www.youtube.com/watch?v=abc", "t1")],
    disk := ["/app/downloads/t1.mp4"],
    dispatched := [],
    nextId := 1 }

/-- C2 counterexample: after deleting the completed job `t1`, its cache
index entry is still present and a status query returns HTTP 200 with
status PENDING rather than a not-found. -/
theorem delete_keeps_cache_and_reports_pending :
    hget (delete_task deleteExampleState "/app" "t1").cache
        "https://www.youtube.com/watch?v=abc" = some "t1"
    ∧ (get_task_status (delete_task deleteExampleState "/app" "t1") "t1").code = 200
    ∧ (get_task_status (delete_task deleteExampleState "/app" "t1") "t1").status
        = TaskStatus.pending := by
  refine ⟨by decide, by decide, by decide⟩

/-- C2 (amended): deleting a job removes its backing file when the recorded
path exists and passes the prefix containment check, removes its history
zset and hash entries, and forgets the backend entry — after which a status
query returns HTTP 200 with status PENDING and no details; the cache index
is left untouched. -/
theorem delete_task_bookkeeping (s : SysState) (cwd tid : String) :
    hget (delete_task s cwd tid).backend tid = none
    ∧ (zmembers (delete_task s cwd tid).zset).contains tid = false
    ∧ hget (delete_task s cwd tid).details tid = none
    ∧ (delete_task s cwd tid).cache = s.cache
    ∧ (get_task_status (delete_task s cwd tid) tid).code = 200
    ∧ (get_task_status (delete_task s cwd tid) tid).status = TaskStatus.pending
    ∧ (get_task_status (delete_task s cwd tid) tid).details_result = none
    ∧ (get_task_status (delete_task s cwd tid) tid).details_error = none
    ∧ (∀ p, p ∈ (delete_task s cwd tid).disk → p ∈ s.disk)
    ∧ (∀ t res fp, hget s.backend tid = some t → t.status = TaskStatus.success
        → t.result = some res → res.filepath = some fp
        → pathExists s cwd fp = true
        → startswith (abspath cwd fp) (downloadDirAbs cwd) = true
        → (delete_task s cwd tid).disk = s.disk.erase (abspath cwd fp)) := by
  obtain ⟨hb, hz, hd, hc, hdisp, hdiskshape⟩ := delete_task_shape s cwd tid
  have hbn : hget (delete_task s cwd tid).backend tid = none := by
    rw [hb]
    exact hget_hdel_self _ _
  have hstat := get_task_status_of_backend_none hbn
  refine ⟨hbn, ?_, ?_, hc, ?_, ?_, ?_, ?_, ?_, ?_⟩
  · rw [hz]
    exact zrem_contains_self_false _ _
  · rw [hd]
    exact hget_hdel_self _ _
  · rw [hstat]
  · rw [hstat]
  · rw [hstat]
  · rw [hstat]
  · intro p hp
    rcases hdiskshape with hsame | ⟨q, hq⟩
    · rw [hsame] at hp
      exact hp
    · rw [hq] at hp
      exact List.mem_of_mem_erase hp
  · intro t res fp hr hst hres hfp hex hin
    exact delete_task_disk_removes hr hst hres hfp hex hin

/-- C2 witness: at the concrete completed-job state the file inside the
root is erased and the backend entry is forgotten. -/
theorem delete_task_bookkeeping_witness :
    pathExists deleteExampleState "/app" "/app/downloads/t1.mp4" = true
    ∧ startswith (abspath "/app" "/app/downloads/t1.mp4") (downloadDirAbs "/app") = true
    ∧ (delete_task deleteExampleState "/app" "t1").disk
        = deleteExampleState.disk.erase (abspath "/app" "/app/downloads/t1.mp4")
    ∧ hget (delete_task deleteExampleState "/app" "t1").backend "t1" = none := by
  refine ⟨by decide, by decide, ?_, ?_⟩
  · exact (delete_task_bookkeeping deleteExampleState "/app" "t1").2.2.2.2.2.2.2.2.2
      _ _ _ rfl rfl rfl rfl (by decide) (by decide)
  · exact (delete_task_bookkeeping deleteExampleState "/app" "t1").1

/-- A state whose successful job result points at a file outside the
download root which does exist on disk. -/
def outsideRootState : SysState :=
  { backend := [("t1",
      { status := TaskStatus.success,
        result := some
          { status := none,
            filepath := some "/etc/passwd",
            original_filename := some "passwd" },
        error := none })],
    zset := [], details := [], cache := [],
    disk := ["/etc/passwd"],
    dispatched := [], nextId := 0 }

/-- C4 counterexample: the docker iteration's file fetch
(src/docker/main.py) has no containment check and serves an existing path
that lies outside the download root instead of rejecting it with 403. -/
theorem docker_file_fetch_serves_outside_root :
    startswith (abspath "/app" "/etc/passwd") (downloadDirAbs "/app") = false
    ∧ docker_download_file outsideRootState "/app" "t1"
        = GatewayResult.fileResponse "/etc/passwd" "passwd" := by
  refine ⟨by decide, by decide⟩

/-- C4 (amended): in the yt-dlp and app iterations the file fetch, once
the task is successful and records a filepath, returns 403 whenever the
absolute path fails the string-prefix containment check against the
download root, 404 when the check passes but the file is absent, and
serves only paths passing both checks. -/
theorem download_file_gateway_checks
    (s : SysState) (cwd tid : String) (t : TaskRecord) (res : DlResult) (fp : String)
    (hr : hget s.backend tid = some t) (hst : t.status = TaskStatus.success)
    (hres : t.result = some res) (hfp : res.filepath = some fp) :
    (startswith (abspath cwd fp) (downloadDirAbs cwd) = false →
      download_file s cwd tid
        = GatewayResult.forbidden "Forbidden: Access to this file is not allowed.")
    ∧ (startswith (abspath cwd fp) (downloadDirAbs cwd) = true →
        s.disk.contains (abspath cwd fp) = false →
        download_file s cwd tid
          = GatewayResult.notFound "File not found on the server.")
    ∧ (startswith (abspath cwd fp) (downloadDirAbs cwd) = true →
        s.disk.contains (abspath cwd fp) = true →
        download_file s cwd tid
          = GatewayResult.fileResponse (abspath cwd fp)
              (res.original_filename.getD (tid ++ ".mp4"))) := by
  have hsucc : successful (hget s.backend tid) = true := by
    rw [hr]
    simp [successful, celeryStatus, hst]
  have hfpath : ((hget s.backend tid).bind TaskRecord.result).bind DlResult.filepath
      = some fp := by
    rw [hr]
    simp [Option.bind, hres, hfp]
  have hofn : ((hget s.backend tid).bind TaskRecord.result).bind DlResult.original_filename
      = res.original_filename := by
    rw [hr]
    simp [Option.bind, hres]
  refine ⟨?_, ?_, ?_⟩
  · intro hout
    rw [download_file]
    dsimp only
    rw [hsucc, if_neg (by simp), hfpath]
    dsimp only
    rw [hout, if_pos rfl]
  · intro hin habs
    rw [download_file]
    dsimp only
    rw [hsucc, if_neg (by simp), hfpath]
    dsimp only
    rw [hin, if_neg (by simp), habs, if_pos rfl]
  · intro hin hpresent
    rw [download_file]
    dsimp only
    rw [hsucc, if_neg (by simp), hfpath]
    dsimp only
    rw [hin, if_neg (by simp), hpresent, if_neg (by simp), hofn]

/-- C4 witness: the gateway serves the in-root file of the concrete
completed-job state. -/
theorem download_file_gateway_checks_witness :
    startswith (abspath "/app" "/app/downloads/t1.mp4") (downloadDirAbs "/app") = true
    ∧ deleteExampleState.disk.contains (abspath "/app" "/app/downloads/t1.mp4") = true
    ∧ download_file deleteExampleState "/app" "t1"
        = GatewayResult.fileResponse (abspath "/app" "/app/downloads/t1.mp4") "video.mp4" := by
  refine ⟨by decide, by decide, ?_⟩
  exact (download_file_gateway_checks deleteExampleState "/app" "t1" _ _ _
    rfl rfl rfl rfl).2.2 (by decide) (by decide)

/-- A state whose successful job result points at a sibling directory whose
name merely begins with the download root's string. -/
def evilSiblingState : SysState :=
  { backend := [("t1",
      { status := TaskStatus.success,
        result := some
          { status := none,
            filepath := some "/app/downloads_evil/x",
            original_filename := some "x.mp4" },
        error := none })],
    zset := [], details := [], cache := [],
    disk := ["/app/downloads_evil/x"],
    dispatched := [], nextId := 0 }

/-- C9: the containment check is a bare string-prefix test with no
directory-separator boundary: /app/downloads_evil/x lies outside the root
/app/downloads (it is neither the root nor below root-plus-separator), yet
the file fetch serves it and the delete operation removes it from disk. -/
theorem prefix_containment_no_boundary :
    startswith "/app/downloads_evil/x" (downloadDirAbs "/app") = true
    ∧ "/app/downloads_evil/x" ≠ downloadDirAbs "/app"
    ∧ startswith "/app/downloads_evil/x" (downloadDirAbs "/app" ++ "/") = false
    ∧ download_file evilSiblingState "/app" "t1"
        = GatewayResult.fileResponse "/app/downloads_evil/x" "x.mp4"
    ∧ (delete_task evilSiblingState "/app" "t1").disk.contains "/app/downloads_evil/x"
        = false := by
  refine ⟨by decide, by decide, by decide, by decide, by decide⟩

/-- C8 counterexample: with a retryable download error on every attempt the
task body executes 4 times (one initial attempt plus `max_retries = 3`
retries), exceeding a cap of 3 attempts. -/
theorem retry_runs_four_attempts :
    (AppWorker.download_video (fun _ => ExecOutcome.downloadErr "network error")
        (fun _ => 0)).1 = 4
    ∧ ¬ (AppWorker.download_video (fun _ => ExecOutcome.downloadErr "network error")
        (fun _ => 0)).1 ≤ 3 := by
  refine ⟨by decide, by decide⟩

/-- C8 (amended): the task is retried only for the retryable download-error
class, with exponential backoff (factor 60 s, doubling, capped at 600 s)
and randomized jitter drawn below the interval, for at most 3 retries —
hence at most 4 executions; any other exception fails immediately without
retry. -/
theorem retry_policy_bounded_backoff (outcomes : Nat → ExecOutcome) (jit : Nat → Nat) :
    (AppWorker.download_video outcomes jit).1 ≤ 1 + AppWorker.max_retries
    ∧ (∀ msg, outcomes 0 = ExecOutcome.otherErr msg →
        AppWorker.download_video outcomes jit = (1, [], RetryFinal.failed msg))
    ∧ (AppWorker.download_video outcomes jit).2.1
        = (List.range ((AppWorker.download_video outcomes jit).1 - 1)).map
            (AppWorker.jitteredCountdown jit)
    ∧ (∀ r, AppWorker.jitteredCountdown jit r
        ≤ min AppWorker.retry_backoff_max (AppWorker.retry_backoff * 2 ^ r)) := by
  obtain ⟨hb1, hb2, hb3⟩ := AppWorker.retryRun_bounds outcomes jit AppWorker.max_retries 0
  refine ⟨?_, ?_, ?_, ?_⟩
  · have heq : (AppWorker.download_video outcomes jit).1
        = (AppWorker.retryRun outcomes jit 0 AppWorker.max_retries).1 := rfl
    rw [heq]
    omega
  · intro msg h0
    show AppWorker.retryRun outcomes jit 0 AppWorker.max_retries
      = (1, [], RetryFinal.failed msg)
    rw [AppWorker.retryRun, h0]
  · have heq : AppWorker.download_video outcomes jit
        = AppWorker.retryRun outcomes jit 0 AppWorker.max_retries := rfl
    rw [heq, hb3]
    apply List.map_congr_left
    intro i hi
    simp
  · intro r
    rw [AppWorker.jitteredCountdown]
    have h := Nat.mod_lt (jit r) (show 0 < AppWorker.backoffInterval r + 1 by omega)
    rw [show min AppWorker.retry_backoff_max (AppWorker.retry_backoff * 2 ^ r)
        = AppWorker.backoffInterval r from rfl]
    omega

/-- C8 witness: a non-retryable exception on the first attempt ends the run
after one execution, and a sample jittered countdown respects the capped
exponential bound. -/
theorem retry_policy_bounded_backoff_witness :
    (fun _ : Nat => ExecOutcome.otherErr "boom") 0 = ExecOutcome.otherErr "boom"
    ∧ AppWorker.download_video (fun _ => ExecOutcome.otherErr "boom") (fun _ => 7)
        = (1, [], RetryFinal.failed "boom")
    ∧ AppWorker.jitteredCountdown (fun _ => 7) 2
        ≤ min AppWorker.retry_backoff_max (AppWorker.retry_backoff * 2 ^ 2) := by
  refine ⟨rfl, ?_, ?_⟩
  · exact (retry_policy_bounded_backoff (fun _ => ExecOutcome.otherErr "boom")
      (fun _ => 7)).2.1 "boom" rfl
  · exact (retry_policy_bounded_backoff (fun _ => ExecOutcome.otherErr "boom")
      (fun _ => 7)).2.2.2 2

/-- C5 witness: a concrete failing run records FAILURE with the cause and
leaves the cache unchanged. -/
theorem worker_failure_no_cache_update_witness :
    "boom" ≠ ""
    ∧ hget (download_video emptyState "/app" "t9" "u" "k" (Except.error "boom")).backend "t9"
        = some { status := TaskStatus.failure, result := none, error := some "boom" }
    ∧ (download_video emptyState "/app" "t9" "u" "k" (Except.error "boom")).cache
        = emptyState.cache := by
  refine ⟨by decide, ?_, ?_⟩
  · exact (worker_failure_no_cache_update emptyState "/app" "t9" "u" "k" "boom" (by decide)).1
  · exact (worker_failure_no_cache_update emptyState "/app" "t9" "u" "k" "boom"
      (by decide)).2.2.1

/-- C10 witness: a never-submitted id gets HTTP 200 and PENDING. -/
theorem unknown_task_reports_pending_200_witness :
    hget emptyState.backend "nope" = none
    ∧ (get_task_status emptyState "nope").code = 200
    ∧ (get_task_status emptyState "nope").status = TaskStatus.pending := by
  refine ⟨rfl, ?_, ?_⟩
  · exact (unknown_task_reports_pending_200 emptyState "nope" rfl).1
  · exact (unknown_task_reports_pending_200 emptyState "nope" rfl).2.1

/-- C6 witness: a concrete valid URL is normalized idempotently. -/
theorem normalize_idempotent_witness :
    validUrlCh "https://www.youtube.com/watch?v=dQw4w9WgXcQ&t=10s".data = true
    ∧ normalize_youtube_url
        (normalize_youtube_url "https://www.youtube.com/watch?v=dQw4w9WgXcQ&t=10s")
      = normalize_youtube_url "https://www.youtube.com/watch?v=dQw4w9WgXcQ&t=10s" := by
  refine ⟨by decide, ?_⟩
  exact (normalize_idempotent_preserves_components
    "https://www.youtube.com/watch?v=dQw4w9WgXcQ&t=10s" (by decide)).1

/-- C7 counterexample: a URL on a domain outside the known media-sharing
set but carrying a `v` parameter is rewritten, not returned unchanged. -/
theorem normalize_alters_unrecognized_domain :
    isYoutubeUrl "https://example.com/a?v=1&t=2" = false
    ∧ normalize_youtube_url "https://example.com/a?v=1&t=2" = "https://example.com/a?v=1"
    ∧ normalize_youtube_url "https://example.com/a?v=1&t=2"
        ≠ "https://example.com/a?v=1&t=2" := by
  refine ⟨by decide, by decide, by decide⟩

/-- C7 witness: a media-domain URL without a `v` parameter is returned
unchanged. -/
theorem normalize_keys_on_v_param_witness :
    validUrlCh "https://youtu.be/dQw4w9WgXcQ".data = true
    ∧ firstV (parseQsl (urlparseCh "https://youtu.be/dQw4w9WgXcQ".data).query) = none
    ∧ normalize_youtube_url "https://youtu.be/dQw4w9WgXcQ" = "https://youtu.be/dQw4w9WgXcQ" := by
  refine ⟨by decide, by decide, ?_⟩
  exact (normalize_keys_on_v_param "https://youtu.be/dQw4w9WgXcQ" (by decide)).1 (by decide)

/-- C1 witness: a concrete first submission, successful completion, and a
second submission of a differently-decorated URL with the same canonical
form that reuses the first job id without dispatching. -/
theorem submit_cache_hit_reuses_job_witness :
    normalize_youtube_url "https://www.youtube.com/watch?v=abc&t=2"
      = normalize_youtube_url "https://www.youtube.com/watch?v=abc"
    ∧ validCacheHit emptyState "/app"
        (normalize_youtube_url "https://www.youtube.com/watch?v=abc") = false
    ∧ (submit (download_video
          (submit emptyState "/app" "https://www.youtube.com/watch?v=abc" 0).2.2
          "/app" (submit emptyState "/app" "https://www.youtube.com/watch?v=abc" 0).1
          "https://www.youtube.com/watch?v=abc"
          (normalize_youtube_url "https://www.youtube.com/watch?v=abc")
          (Except.ok { title := some "Title", ext := "mp4" }))
        "/app" "https://www.youtube.com/watch?v=abc&t=2" 1).1
      = (submit emptyState "/app" "https://www.youtube.com/watch?v=abc" 0).1
    ∧ (submit (download_video
          (submit emptyState "/app" "https://www.youtube.com/watch?v=abc" 0).2.2
          "/app" (submit emptyState "/app" "https://www.youtube.com/watch?v=abc" 0).1
          "https://www.youtube.com/watch?v=abc"
          (normalize_youtube_url "https://www.youtube.com/watch?v=abc")
          (Except.ok { title := some "Title", ext := "mp4" }))
        "/app" "https://www.youtube.com/watch?v=abc&t=2" 1).2.1 = false := by
  refine ⟨by decide, by decide, ?_, ?_⟩
  · exact (submit_cache_hit_reuses_job emptyState _ _ _ "/app"
      "https://www.youtube.com/watch?v=abc" "https://www.youtube.com/watch?v=abc&t=2"
      _ _ _ _ 0 1 { title := some "Title", ext := "mp4" }
      (by decide) (by decide) rfl rfl rfl).1
  · exact (submit_cache_hit_reuses_job emptyState _ _ _ "/app"
      "https://www.youtube.com/watch?v=abc" "https://www.youtube.com/watch?v=abc&t=2"
      _ _ _ _ 0 1 { title := some "Title", ext := "mp4" }
      (by decide) (by decide) rfl rfl rfl).2.1

end Dler
